import Mathlib

/-!
Verification of the doubly-linked deque of `src/deque/deque.h` together with
its allocator abstraction (`src/deque/allocator.h`, `allocator_interface.h`).

The C++ container `deque_t<elemType, memoryAllocator>` owns a chain of
`node_t { value, prev, next }` nodes on the heap.  We embed it shallowly:

* heap addresses are `Nat`; the node heap is a function `Nat -> Option Node`;
* element values are `Int` (the demonstration program instantiates
  `elemType = int`; copy and move overloads of an operation coincide for a
  value type, so each pair of C++ overloads is one Lean function);
* the `unsigned int size` field is a `Nat` kept below `2 ^ 32`; every update
  of the field is taken modulo `M = 2 ^ 32`, matching unsigned wraparound;
* an allocation returns the next fresh address (`malloc` succeeding); a
  failing allocator (`malloc` returning `NULL`) is modelled by `allocFail`;
* each deque carries the identity (`allocId`) of its `memoryAllocator`
  member; a ghost trace of alloc/dealloc events records which allocator
  instance performed each heap operation.  The move constructor and the move
  assignment of `deque_t` do not transfer the allocator member, so the
  destination's member is a freshly default-constructed instance, modelled
  by giving the destination a caller-chosen new `allocId`.
* a C++ `throw` unwinds before any field of the deque is mutated, so a
  failing operation returns the unchanged deque together with the error.
-/

namespace DequeModel

/-- Modulus of the C++ `unsigned int` field `size` of `deque_t`. -/
def M : Nat := 4294967296

/-- `node_t` of deque.h: one stored value and the two neighbour links
(`nullptr` is `none`). -/
structure Node where
  value : Int
  prev : Option Nat
  next : Option Nat
deriving DecidableEq

/-- The node heap: what node, if any, lives at each address. -/
abbrev Heap := Nat → Option Node

/-- Ghost memory event: which allocator instance allocated or deallocated
which address. -/
inductive MemEvent where
  | alloc : Nat → Nat → MemEvent
  | dealloc : Nat → Nat → MemEvent
deriving DecidableEq

/-- The global memory: the node heap, the next fresh address, and the ghost
trace of allocator events. -/
structure Mem where
  heap : Heap
  fresh : Nat
  trace : List MemEvent

/-- The fields of a `deque_t` object: `head`, `tail`, `size`, and the
identity of its `memoryAllocator` member. -/
structure Dq where
  head : Option Nat
  tail : Option Nat
  size : Nat
  allocId : Nat
deriving DecidableEq

/-- The error kinds of the specification.  `nullDereference` stands for the
undefined behaviour of writing through a null pointer, which is what the
C++ code does when `allocator.alloc` returns `NULL`. -/
inductive DequeError where
  | emptyContainer
  | invalidIterator
  | outOfMemory
  | nullDereference
deriving DecidableEq

/-- Reading a node through a pointer (`p->field`).  A read of an absent node
is undefined behaviour in C++; the model returns a junk node, which never
happens under the representation invariant. -/
def getNode (h : Heap) (a : Nat) : Node := (h a).getD ⟨0, none, none⟩

/-- Point update of the heap. -/
def hUpd (h : Heap) (a : Nat) (n : Option Node) : Heap :=
  fun x => if x = a then n else h x

/-- `a->next = nx`. -/
def setNext (h : Heap) (a : Nat) (nx : Option Nat) : Heap :=
  hUpd h a (some { getNode h a with next := nx })

/-- `a->prev = pv`. -/
def setPrev (h : Heap) (a : Nat) (pv : Option Nat) : Heap :=
  hUpd h a (some { getNode h a with prev := pv })

/-- `simple_allocator_t::alloc` when `malloc` succeeds: it hands out a fresh
block; the ghost trace records which allocator instance allocated it. -/
def allocOk (m : Mem) (id : Nat) : Option Nat × Mem :=
  (some m.fresh,
   { heap := m.heap, fresh := m.fresh + 1,
     trace := m.trace ++ [MemEvent.alloc m.fresh id] })

/-- An allocator whose `alloc` fails: `malloc` returns `NULL`. -/
def allocFail (m : Mem) (_id : Nat) : Option Nat × Mem := (none, m)

/-- `allocator.dealloc` on address `a`, performed by allocator instance
`id`: the node is removed from the heap and the event is recorded. -/
def deallocMem (m : Mem) (a : Nat) (id : Nat) : Mem :=
  { heap := hUpd m.heap a none, fresh := m.fresh,
    trace := m.trace ++ [MemEvent.dealloc a id] }

/-- `deque_t::PushBack` (both overloads), parameterized by the allocator.
The C++ body: `tmp = alloc(...); tmp->value = elem; tmp->next = nullptr;
tmp->prev = tail; if (tail) tail->next = tmp; tail = tmp;
if (head == nullptr) head = tail; size++;`.  When `alloc` returns `NULL`,
the very next statement stores through the null pointer. -/
def pushBackGen (A : Mem → Nat → Option Nat × Mem) (v : Int) (d : Dq) (m : Mem) :
    Option DequeError × Dq × Mem :=
  match A m d.allocId with
  | (none, m1) => (some DequeError.nullDereference, d, m1)
  | (some a, m1) =>
    (none,
      { head := match d.head with | none => some a | some x => some x,
        tail := some a,
        size := (d.size + 1) % M,
        allocId := d.allocId },
      { heap :=
          match d.tail with
          | none => hUpd m1.heap a (some { value := v, prev := d.tail, next := none })
          | some t =>
            setNext (hUpd m1.heap a (some { value := v, prev := d.tail, next := none }))
              t (some a),
        fresh := m1.fresh,
        trace := m1.trace })

/-- `deque_t::PushFront` (both overloads), parameterized by the allocator.
C++ body: `tmp = alloc(...); tmp->value = elem; tmp->next = head;
tmp->prev = nullptr; if (head) head->prev = tmp; head = tmp;
if (tail == nullptr) tail = head; size++;`. -/
def pushFrontGen (A : Mem → Nat → Option Nat × Mem) (v : Int) (d : Dq) (m : Mem) :
    Option DequeError × Dq × Mem :=
  match A m d.allocId with
  | (none, m1) => (some DequeError.nullDereference, d, m1)
  | (some a, m1) =>
    (none,
      { head := some a,
        tail := match d.tail with | none => some a | some x => some x,
        size := (d.size + 1) % M,
        allocId := d.allocId },
      { heap :=
          match d.head with
          | none => hUpd m1.heap a (some { value := v, prev := none, next := d.head })
          | some hd =>
            setPrev (hUpd m1.heap a (some { value := v, prev := none, next := d.head }))
              hd (some a),
        fresh := m1.fresh,
        trace := m1.trace })

/-- `PushBack` with the default allocator on the `malloc` success path. -/
def pushBack (v : Int) (d : Dq) (m : Mem) : Option DequeError × Dq × Mem :=
  pushBackGen allocOk v d m

/-- `PushFront` with the default allocator on the `malloc` success path. -/
def pushFront (v : Int) (d : Dq) (m : Mem) : Option DequeError × Dq × Mem :=
  pushFrontGen allocOk v d m

/-- `deque_t::PopFront`: throw when `head == nullptr`; otherwise
`tmp = head; head = head->next; dealloc(tmp); if (head == nullptr)
tail = nullptr; else head->prev = nullptr; size--;`. -/
def popFront (d : Dq) (m : Mem) : Option DequeError × Dq × Mem :=
  match d.head with
  | none => (some DequeError.emptyContainer, d, m)
  | some a =>
    match (getNode m.heap a).next with
    | none =>
      (none,
       { head := none, tail := none, size := (d.size + (M - 1)) % M, allocId := d.allocId },
       deallocMem m a d.allocId)
    | some b =>
      (none,
       { head := some b, tail := d.tail, size := (d.size + (M - 1)) % M,
         allocId := d.allocId },
       { heap := setPrev (deallocMem m a d.allocId).heap b none,
         fresh := m.fresh,
         trace := m.trace ++ [MemEvent.dealloc a d.allocId] })

/-- `deque_t::PopBack`: throw when `tail == nullptr`; otherwise
`tmp = tail; tail = tail->prev; dealloc(tmp); if (tail == nullptr)
head = nullptr; else tail->next = nullptr; size--;`. -/
def popBack (d : Dq) (m : Mem) : Option DequeError × Dq × Mem :=
  match d.tail with
  | none => (some DequeError.emptyContainer, d, m)
  | some a =>
    match (getNode m.heap a).prev with
    | none =>
      (none,
       { head := none, tail := none, size := (d.size + (M - 1)) % M, allocId := d.allocId },
       deallocMem m a d.allocId)
    | some b =>
      (none,
       { head := d.head, tail := some b, size := (d.size + (M - 1)) % M,
         allocId := d.allocId },
       { heap := setNext (deallocMem m a d.allocId).heap b none,
         fresh := m.fresh,
         trace := m.trace ++ [MemEvent.dealloc a d.allocId] })

/-- `deque_t::IsEmpty`: `head == nullptr`. -/
def isEmpty (d : Dq) : Bool := d.head == none

/-- `deque_t::Size`. -/
def dqSize (d : Dq) : Nat := d.size

/-- `deque_t::PeekHead`: throws on an empty deque, otherwise reads
`head->value` without mutation. -/
def peekHead (d : Dq) (m : Mem) : Except DequeError Int :=
  match d.head with
  | none => Except.error DequeError.emptyContainer
  | some a => Except.ok (getNode m.heap a).value

/-- `deque_t::GetFront` (mutable-reference read of the first element). -/
def getFront (d : Dq) (m : Mem) : Except DequeError Int :=
  match d.head with
  | none => Except.error DequeError.emptyContainer
  | some a => Except.ok (getNode m.heap a).value

/-- `deque_t::PeekTail`: throws on an empty deque, otherwise reads
`tail->value` without mutation. -/
def peekTail (d : Dq) (m : Mem) : Except DequeError Int :=
  match d.tail with
  | none => Except.error DequeError.emptyContainer
  | some a => Except.ok (getNode m.heap a).value

/-- `deque_t::GetBack` (mutable-reference read of the last element). -/
def getBack (d : Dq) (m : Mem) : Except DequeError Int :=
  match d.tail with
  | none => Except.error DequeError.emptyContainer
  | some a => Except.ok (getNode m.heap a).value

/-- The loop `while (head) PopBack();` of `deque_t::Clear`, with explicit
fuel.  Under the representation invariant the chain is finite and `size`
counts its nodes, so `size` steps of fuel run the loop to completion. -/
def clearLoop : Nat → Dq → Mem → Dq × Mem
  | 0, d, m => (d, m)
  | fuel + 1, d, m =>
    match d.head with
    | none => (d, m)
    | some _ => clearLoop fuel (popBack d m).2.1 (popBack d m).2.2

/-- `deque_t::Clear` (also the body of the destructor). -/
def clear (d : Dq) (m : Mem) : Dq × Mem := clearLoop d.size d m

/-- `deque_t::AddOtherDeque` (move overload): splice the other chain onto
this one in O(1) and leave the other deque empty. -/
def addOtherMove (d other : Dq) (m : Mem) : Dq × Dq × Mem :=
  match d.tail with
  | none =>
    ({ head := other.head, tail := other.tail, size := other.size, allocId := d.allocId },
     { head := none, tail := none, size := 0, allocId := other.allocId },
     m)
  | some t =>
    match other.head with
    | none => (d, other, m)
    | some oh =>
      ({ head := d.head, tail := other.tail, size := (d.size + other.size) % M,
         allocId := d.allocId },
       { head := none, tail := none, size := 0, allocId := other.allocId },
       { heap := setPrev (setNext m.heap t (some oh)) oh (some t),
         fresh := m.fresh, trace := m.trace })

/-- The loop `for (auto& x : other) PushBack(x);` used by the copy
constructor, the copy assignment and the copy merge: it dereferences the
iterator, pushes the value, and then advances the iterator by reading
`curNode->next` from the (already updated) heap.  Fuel: under the
representation invariant the traversal takes exactly `other.size` steps. -/
def copyLoop : Nat → Option Nat → Dq → Mem → Dq × Mem
  | 0, _, d, m => (d, m)
  | _ + 1, none, d, m => (d, m)
  | fuel + 1, some a, d, m =>
    copyLoop fuel
      (getNode (pushBack (getNode m.heap a).value d m).2.2.heap a).next
      (pushBack (getNode m.heap a).value d m).2.1
      (pushBack (getNode m.heap a).value d m).2.2

/-- `deque_t::AddOtherDeque` (copy overload). -/
def addOtherCopy (d other : Dq) (m : Mem) : Dq × Mem :=
  copyLoop other.size other.head d m

/-- The copy constructor: a fresh empty deque (with a freshly
default-constructed allocator member, identity `newId`) push-backs every
value of the source in order. -/
def copyCtor (src : Dq) (m : Mem) (newId : Nat) : Dq × Mem :=
  copyLoop src.size src.head { head := none, tail := none, size := 0, allocId := newId } m

/-- The copy assignment `operator=`: `Clear()` then push-back every value of
the source in order.  The destination keeps its own allocator member. -/
def copyAssign (dst src : Dq) (m : Mem) : Dq × Mem :=
  copyLoop src.size src.head (clear dst m).1 (clear dst m).2

/-- The move constructor: steal `head`/`tail`/`size` and null the source.
The allocator member of the destination is default-constructed (the C++
constructor does not copy or move it), hence the fresh identity `newId`. -/
def moveCtor (src : Dq) (newId : Nat) : Dq × Dq :=
  ({ head := src.head, tail := src.tail, size := src.size, allocId := newId },
   { head := none, tail := none, size := 0, allocId := src.allocId })

/-- The move assignment `operator=`: `Clear()` the destination (through the
destination's own allocator member), then steal `head`/`tail`/`size` and
null the source.  The destination keeps its own allocator member. -/
def moveAssign (dst src : Dq) (m : Mem) : Dq × Dq × Mem :=
  ({ head := src.head, tail := src.tail, size := src.size, allocId := (clear dst m).1.allocId },
   { head := none, tail := none, size := 0, allocId := src.allocId },
   (clear dst m).2)

/-- A default-constructed deque paired with allocator instance `id`. -/
def emptyDq (id : Nat) : Dq := { head := none, tail := none, size := 0, allocId := id }

/-- Push-back a list of values in order (the body of the
initializer-list constructor). -/
def pushBackList : List Int → Dq → Mem → Dq × Mem
  | [], d, m => (d, m)
  | v :: rest, d, m => pushBackList rest (pushBack v d m).2.1 (pushBack v d m).2.2

/-- The initializer-list constructor: start empty, push each value at the
back in input order. -/
def ofList (vs : List Int) (id : Nat) (m : Mem) : Dq × Mem :=
  pushBackList vs (emptyDq id) m

/-- An initial memory: empty heap, no events. -/
def mem0 : Mem := { heap := fun _ => none, fresh := 0, trace := [] }

/-- A concrete one-node memory used to instantiate theorems: the node at
address 0 holds the value 1. -/
def wMem1 : Mem :=
  { heap := fun a => if a = 0 then some { value := 1, prev := none, next := none } else none,
    fresh := 1, trace := [] }

/-- The concrete one-element deque [1] living in `wMem1`. -/
def wDq1 : Dq := { head := some 0, tail := some 0, size := 1, allocId := 0 }

/-- A concrete two-node memory: address 0 holds 1, address 1 holds 2,
each forming its own single-node chain. -/
def wMem2 : Mem :=
  { heap := fun a =>
      if a = 0 then some { value := 1, prev := none, next := none }
      else if a = 1 then some { value := 2, prev := none, next := none }
      else none,
    fresh := 2, trace := [] }

/-- The one-element deque [1] at address 0 of `wMem2`. -/
def wDqA : Dq := { head := some 0, tail := some 0, size := 1, allocId := 0 }

/-- The one-element deque [2] at address 1 of `wMem2`. -/
def wDqB : Dq := { head := some 1, tail := some 1, size := 1, allocId := 1 }

/-- `iterator::operator*`: throws on a past-the-end iterator. -/
def iterDeref (h : Heap) (cur : Option Nat) : Except DequeError Int :=
  match cur with
  | none => Except.error DequeError.invalidIterator
  | some a => Except.ok (getNode h a).value

/-- Prefix `iterator::operator++`: throws on a past-the-end iterator,
otherwise moves to `curNode->next`. -/
def iterIncr (h : Heap) (cur : Option Nat) : Except DequeError (Option Nat) :=
  match cur with
  | none => Except.error DequeError.invalidIterator
  | some a => Except.ok (getNode h a).next

/-- The other `iterator::operator++`: throws on a past-the-end iterator,
otherwise returns the previous position and advances. -/
def iterIncrPost (h : Heap) (cur : Option Nat) :
    Except DequeError (Option Nat × Option Nat) :=
  match cur with
  | none => Except.error DequeError.invalidIterator
  | some a => Except.ok (some a, (getNode h a).next)

/-- `const_iterator::operator*`. -/
def citerDeref (h : Heap) (cur : Option Nat) : Except DequeError Int :=
  match cur with
  | none => Except.error DequeError.invalidIterator
  | some a => Except.ok (getNode h a).value

/-- Prefix `const_iterator::operator++`. -/
def citerIncr (h : Heap) (cur : Option Nat) : Except DequeError (Option Nat) :=
  match cur with
  | none => Except.error DequeError.invalidIterator
  | some a => Except.ok (getNode h a).next

/-- The other `const_iterator::operator++`. -/
def citerIncrPost (h : Heap) (cur : Option Nat) :
    Except DequeError (Option Nat × Option Nat) :=
  match cur with
  | none => Except.error DequeError.invalidIterator
  | some a => Except.ok (some a, (getNode h a).next)

/-- `reverse_iterator::operator*`. -/
def riterDeref (h : Heap) (cur : Option Nat) : Except DequeError Int :=
  match cur with
  | none => Except.error DequeError.invalidIterator
  | some a => Except.ok (getNode h a).value

/-- Prefix `reverse_iterator::operator++`: moves to `curNode->prev`. -/
def riterIncr (h : Heap) (cur : Option Nat) : Except DequeError (Option Nat) :=
  match cur with
  | none => Except.error DequeError.invalidIterator
  | some a => Except.ok (getNode h a).prev

/-- The other `reverse_iterator::operator++`. -/
def riterIncrPost (h : Heap) (cur : Option Nat) :
    Except DequeError (Option Nat × Option Nat) :=
  match cur with
  | none => Except.error DequeError.invalidIterator
  | some a => Except.ok (some a, (getNode h a).prev)

/-! ## The representation predicate -/

/-- The link that the `next` field of the node before `L` must carry:
the first address of `L`, or `vn` when `L` is exhausted. -/
def nextStop (L : List Nat) (vn : Option Nat) : Option Nat :=
  match L with
  | [] => vn
  | b :: _ => some b

/-- The address of the last node of `L`, or `vp` when `L` is empty. -/
def lastStop (vp : Option Nat) (L : List Nat) : Option Nat :=
  match L.getLast? with
  | none => vp
  | some t => some t

/-- `segB h vp L vn`: the addresses `L` carry a doubly-linked segment in
`h` whose first node has `prev = vp`, whose last node has `next = vn`, and
whose internal `prev`/`next` links are consistent. -/
def segB (h : Heap) (vp : Option Nat) (L : List Nat) (vn : Option Nat) : Bool :=
  match L with
  | [] => true
  | a :: rest =>
    ((h a).elim false fun n => (n.prev == vp) && (n.next == nextStop rest vn)) &&
      segB h (some a) rest vn

/-- The chain-shape part of the representation invariant: `head` points at
the first address of `L`, `tail` at the last, the nodes of `L` form a
doubly-linked chain with null links at both ends, the addresses are
distinct and all below the allocation frontier. -/
def RepC (m : Mem) (d : Dq) (L : List Nat) : Prop :=
  d.head = L.head? ∧ d.tail = L.getLast? ∧ segB m.heap none L none = true ∧
    L.Nodup ∧ ∀ a ∈ L, a < m.fresh

/-- The full representation invariant of a live `deque_t` object: the chain
shape, and the 32-bit `size` field truthfully counting the nodes (hence the
node count is representable, i.e. below `2 ^ 32`). -/
def Rep (m : Mem) (d : Dq) (L : List Nat) : Prop :=
  RepC m d L ∧ d.size = L.length ∧ L.length < M

instance (m : Mem) (d : Dq) (L : List Nat) : Decidable (RepC m d L) :=
  inferInstanceAs (Decidable (d.head = L.head? ∧ d.tail = L.getLast? ∧
    segB m.heap none L none = true ∧ L.Nodup ∧ ∀ a ∈ L, a < m.fresh))

instance (m : Mem) (d : Dq) (L : List Nat) : Decidable (Rep m d L) :=
  inferInstanceAs (Decidable (RepC m d L ∧ d.size = L.length ∧ L.length < M))

/-- The structural invariant of the specification: some address list
witnesses the representation. -/
def Inv (m : Mem) (d : Dq) : Prop := ∃ L, Rep m d L

/-- The values stored along a list of addresses, front to back. -/
def vals (h : Heap) (L : List Nat) : List Int :=
  L.map (fun a => (getNode h a).value)

/-- The allocator instance performing a ghost event. -/
def evtId : MemEvent → Nat
  | MemEvent.alloc _ i => i
  | MemEvent.dealloc _ i => i

/-- Every deallocation in the trace goes through the same allocator
instance as the allocation of the same address (addresses are never reused
in the model, so the pairing is unambiguous). -/
def traceRespectsAllocator (tr : List MemEvent) : Bool :=
  tr.all fun e =>
    match e with
    | MemEvent.dealloc a i =>
      tr.all fun e2 =>
        match e2 with
        | MemEvent.alloc a2 i2 => decide (a2 ≠ a) || decide (i2 = i)
        | MemEvent.dealloc _ _ => true
    | MemEvent.alloc _ _ => true

/-! ## Basic lemmas about the segment predicate and the heap -/

theorem hUpd_same (h : Heap) (a : Nat) (n : Option Node) : hUpd h a n a = n := by
  simp [hUpd]

theorem hUpd_other (h : Heap) (a x : Nat) (n : Option Node) (hx : x ≠ a) :
    hUpd h a n x = h x := by
  simp [hUpd, hx]

theorem setNext_same (h : Heap) (a : Nat) (nx : Option Nat) :
    setNext h a nx a = some { getNode h a with next := nx } := by
  simp [setNext, hUpd]

theorem setNext_other (h : Heap) (a x : Nat) (nx : Option Nat) (hx : x ≠ a) :
    setNext h a nx x = h x := by
  simp [setNext, hUpd, hx]

theorem setPrev_same (h : Heap) (a : Nat) (pv : Option Nat) :
    setPrev h a pv a = some { getNode h a with prev := pv } := by
  simp [setPrev, hUpd]

theorem setPrev_other (h : Heap) (a x : Nat) (pv : Option Nat) (hx : x ≠ a) :
    setPrev h a pv x = h x := by
  simp [setPrev, hUpd, hx]

theorem nextStop_none (L : List Nat) : nextStop L none = L.head? := by
  cases L <;> rfl

theorem lastStop_of_ne_nil (vp : Option Nat) (L : List Nat) (hL : L ≠ []) :
    lastStop vp L = L.getLast? := by
  rcases List.eq_nil_or_concat L with h | ⟨L0, t, rfl⟩
  · exact absurd h hL
  · simp [lastStop, List.getLast?_concat]

theorem headQ_append_of_ne_nil (L L2 : List Nat) (hL : L ≠ []) :
    (L ++ L2).head? = L.head? := by
  cases L with
  | nil => exact absurd rfl hL
  | cons a rest => rfl

theorem getLastQ_append_of_ne_nil (L L2 : List Nat) (hL2 : L2 ≠ []) :
    (L ++ L2).getLast? = L2.getLast? := by
  rcases List.eq_nil_or_concat L2 with h | ⟨L0, t, rfl⟩
  · exact absurd h hL2
  · rw [List.concat_eq_append, ← List.append_assoc, List.getLast?_concat,
      List.getLast?_concat]

theorem segB_frame (h1 h2 : Heap) (L : List Nat) (hagree : ∀ a ∈ L, h2 a = h1 a) :
    ∀ vp vn, segB h2 vp L vn = segB h1 vp L vn := by
  induction L with
  | nil => intro vp vn; rfl
  | cons a rest ih =>
    intro vp vn
    have ha : h2 a = h1 a := hagree a (by simp)
    simp only [segB, ha]
    rw [ih (fun x hx => hagree x (by simp [hx]))]

theorem segB_append (h : Heap) (L1 L2 : List Nat) : ∀ vp vn,
    segB h vp (L1 ++ L2) vn =
      (segB h vp L1 (nextStop L2 vn) && segB h (lastStop vp L1) L2 vn) := by
  induction L1 with
  | nil =>
    intro vp vn
    simp [segB, lastStop]
  | cons a L1' ih =>
    intro vp vn
    rw [List.cons_append]
    simp only [segB]
    rw [ih]
    cases L1' with
    | nil =>
      simp [nextStop, lastStop, segB, Bool.and_assoc]
    | cons c L1'' =>
      have hlast : lastStop vp (a :: c :: L1'') = lastStop (some a) (c :: L1'') := by
        simp [lastStop, List.getLast?]
      simp [nextStop, hlast, Bool.and_assoc]

theorem segB_cons_inv (h : Heap) (a : Nat) (rest : List Nat) (vp vn : Option Nat)
    (hseg : segB h vp (a :: rest) vn = true) :
    ∃ n, h a = some n ∧ n.prev = vp ∧ n.next = nextStop rest vn ∧
      segB h (some a) rest vn = true := by
  simp only [segB, Bool.and_eq_true] at hseg
  obtain ⟨h1, h2⟩ := hseg
  cases hha : h a with
  | none => rw [hha] at h1; simp at h1
  | some n =>
    rw [hha] at h1
    simp only [Option.elim_some, Bool.and_eq_true, beq_iff_eq] at h1
    exact ⟨n, rfl, h1.1, h1.2, h2⟩

theorem segB_single_iff (h : Heap) (a : Nat) (vp vn : Option Nat) :
    segB h vp [a] vn = true ↔
      ∃ n, h a = some n ∧ n.prev = vp ∧ n.next = vn := by
  constructor
  · intro hseg
    obtain ⟨n, hn, hp, hx, _⟩ := segB_cons_inv h a [] vp vn hseg
    exact ⟨n, hn, hp, hx⟩
  · rintro ⟨n, hn, hp, hx⟩
    simp [segB, hn, hp, hx, nextStop]

theorem segB_snoc_inv (h : Heap) (L0 : List Nat) (t : Nat) (vp vn : Option Nat)
    (hseg : segB h vp (L0 ++ [t]) vn = true) :
    ∃ n, h t = some n ∧ n.prev = lastStop vp L0 ∧ n.next = vn ∧
      segB h vp L0 (some t) = true := by
  rw [segB_append] at hseg
  simp only [Bool.and_eq_true] at hseg
  obtain ⟨n, hn, hp, hx⟩ := (segB_single_iff h t (lastStop vp L0) vn).1 hseg.2
  exact ⟨n, hn, hp, hx, by simpa [nextStop] using hseg.1⟩

theorem segB_setNext_last (h : Heap) (L0 : List Nat) (t : Nat) (vp vn vn' : Option Nat)
    (hseg : segB h vp (L0 ++ [t]) vn = true) (ht : t ∉ L0) :
    segB (setNext h t vn') vp (L0 ++ [t]) vn' = true := by
  obtain ⟨n, hn, hp, _, hL0⟩ := segB_snoc_inv h L0 t vp vn hseg
  rw [segB_append]
  simp only [Bool.and_eq_true]
  constructor
  · have hag : ∀ a ∈ L0, setNext h t vn' a = h a := fun x hx =>
      setNext_other h t x vn' (fun hxe => ht (hxe ▸ hx))
    rw [segB_frame h (setNext h t vn') L0 hag]
    simpa [nextStop] using hL0
  · rw [segB_single_iff]
    refine ⟨{ n with next := vn' }, ?_, by simpa using hp, rfl⟩
    rw [setNext_same, getNode, hn]
    rfl

theorem segB_setPrev_head (h : Heap) (a : Nat) (rest : List Nat) (vp vp' vn : Option Nat)
    (hseg : segB h vp (a :: rest) vn = true) (ha : a ∉ rest) :
    segB (setPrev h a vp') vp' (a :: rest) vn = true := by
  obtain ⟨n, hn, _, hx, hrest⟩ := segB_cons_inv h a rest vp vn hseg
  simp only [segB]
  rw [setPrev_same, getNode, hn]
  have hfr : segB (setPrev h a vp') (some a) rest vn = segB h (some a) rest vn := by
    apply segB_frame
    intro x hx2
    exact setPrev_other h a x vp' (fun hxe => ha (hxe ▸ hx2))
  simp [hx, hfr, hrest]

theorem vals_congr (h1 h2 : Heap) (L : List Nat)
    (hagree : ∀ a ∈ L, (getNode h2 a).value = (getNode h1 a).value) :
    vals h2 L = vals h1 L := by
  simp only [vals]
  exact List.map_congr_left hagree

theorem vals_append (h : Heap) (L1 L2 : List Nat) :
    vals h (L1 ++ L2) = vals h L1 ++ vals h L2 := by
  simp [vals]

theorem vals_length (h : Heap) (L : List Nat) : (vals h L).length = L.length := by
  simp [vals]

theorem M_pos : 0 < M := by norm_num [M]

/-! ## Specifications of the operations -/

theorem pushBack_specC (v : Int) (d : Dq) (m : Mem) (L : List Nat)
    (hrep : RepC m d L) :
    ∃ d' m', pushBack v d m = (none, d', m') ∧
      RepC m' d' (L ++ [m.fresh]) ∧
      d'.size = (d.size + 1) % M ∧ d'.allocId = d.allocId ∧
      vals m'.heap (L ++ [m.fresh]) = vals m.heap L ++ [v] ∧
      (∀ x, x ∉ L → x ≠ m.fresh → m'.heap x = m.heap x) ∧
      m'.fresh = m.fresh + 1 ∧
      m'.trace = m.trace ++ [MemEvent.alloc m.fresh d.allocId] ∧
      (∀ x, x ≠ m.fresh → L.getLast? ≠ some x → m'.heap x = m.heap x) ∧
      (∀ t0, L.getLast? = some t0 →
        m'.heap t0 = some { getNode m.heap t0 with next := some m.fresh }) := by
  obtain ⟨hh, ht, hseg, hnd, hb⟩ := hrep
  rcases List.eq_nil_or_concat L with rfl | ⟨L0, t, rfl⟩
  · have hh0 : d.head = none := by simpa using hh
    have ht0 : d.tail = none := by simpa using ht
    refine ⟨{ head := some m.fresh, tail := some m.fresh, size := (d.size + 1) % M,
              allocId := d.allocId },
            { heap := hUpd m.heap m.fresh (some { value := v, prev := none, next := none }),
              fresh := m.fresh + 1,
              trace := m.trace ++ [MemEvent.alloc m.fresh d.allocId] },
            ?_, ?_, rfl, rfl, ?_, ?_, rfl, rfl, ?_, fun t0 htt0 => absurd htt0 (by simp)⟩
    · simp [pushBack, pushBackGen, allocOk, hh0, ht0]
    · refine ⟨by simp, by simp, ?_, by simp, by simp⟩
      simp [segB, hUpd_same, nextStop]
    · simp [vals, getNode, hUpd_same]
    · intro x _ hxf
      exact hUpd_other m.heap m.fresh x _ hxf
    · intro x hxf _
      exact hUpd_other m.heap m.fresh x _ hxf
  · rw [List.concat_eq_append] at *
    have htl : d.tail = some t := by rw [ht, List.getLast?_concat]
    obtain ⟨hd, hhd⟩ : ∃ x, d.head = some x := by
      rcases L0 with _ | ⟨c, L0'⟩
      · exact ⟨t, by simpa using hh⟩
      · exact ⟨c, by simpa using hh⟩
    have htmem : t ∈ L0 ++ [t] := by simp
    have htf : t < m.fresh := hb t htmem
    have htne : t ∉ L0 := by
      have hdisj := (List.nodup_append.1 hnd).2.2
      intro hmem
      exact hdisj hmem (by simp)
    have hLne : L0 ++ [t] ≠ [] := by simp
    have hfr1 : ∀ x ∈ L0 ++ [t],
        hUpd m.heap m.fresh (some { value := v, prev := some t, next := none }) x = m.heap x := by
      intro x hx
      exact hUpd_other m.heap m.fresh x _ (Nat.ne_of_lt (hb x hx))
    refine ⟨{ head := some hd, tail := some m.fresh, size := (d.size + 1) % M,
              allocId := d.allocId },
            { heap := setNext
                (hUpd m.heap m.fresh (some { value := v, prev := some t, next := none }))
                t (some m.fresh),
              fresh := m.fresh + 1,
              trace := m.trace ++ [MemEvent.alloc m.fresh d.allocId] },
            ?_, ?_, rfl, rfl, ?_, ?_, rfl, rfl, ?_, ?_⟩
    · simp [pushBack, pushBackGen, allocOk, htl, hhd]
    · refine ⟨?_, ?_, ?_, ?_, ?_⟩
      · rw [headQ_append_of_ne_nil _ _ hLne, ← hh, hhd]
      · rw [List.getLast?_concat]
      · have hstep1 : segB (hUpd m.heap m.fresh
            (some { value := v, prev := some t, next := none })) none (L0 ++ [t]) none = true := by
          rw [segB_frame _ _ _ hfr1]
          exact hseg
        have hstep2 := segB_setNext_last _ L0 t none none (some m.fresh) hstep1 htne
        rw [segB_append]
        simp only [Bool.and_eq_true]
        constructor
        · simpa [nextStop] using hstep2
        · rw [lastStop_of_ne_nil none _ hLne, List.getLast?_concat, segB_single_iff]
          refine ⟨{ value := v, prev := some t, next := none }, ?_, rfl, rfl⟩
          rw [setNext_other _ t m.fresh _ (Nat.ne_of_lt htf).symm, hUpd_same]
      · rw [List.nodup_append]
        refine ⟨hnd, by simp, ?_⟩
        intro x hx
        simp only [List.mem_singleton]
        exact fun hxe => absurd (hb x hx) (by simp [hxe])
      · intro x hx
        rcases List.mem_append.1 hx with hx | hx
        · exact Nat.lt_succ_of_lt (hb x hx)
        · simp only [List.mem_singleton] at hx
          simp [hx]
    · rw [vals_append]
      have hvL : vals (setNext
          (hUpd m.heap m.fresh (some { value := v, prev := some t, next := none }))
          t (some m.fresh)) (L0 ++ [t]) = vals m.heap (L0 ++ [t]) := by
        apply vals_congr
        intro x hx
        by_cases hxt : x = t
        · subst hxt
          rw [getNode, setNext_same, getNode, hfr1 x hx]
          simp [getNode]
        · rw [getNode, setNext_other _ _ _ _ hxt, hfr1 x hx]
          rfl
      rw [hvL]
      have hft : setNext (hUpd m.heap m.fresh
          (some { value := v, prev := some t, next := none })) t (some m.fresh) m.fresh =
          some { value := v, prev := some t, next := none } := by
        rw [setNext_other _ t m.fresh _ (Nat.ne_of_lt htf).symm, hUpd_same]
      simp [vals, getNode, hft]
    · intro x hxL hxf
      have hxt : x ≠ t := fun hxe => hxL (hxe ▸ htmem)
      dsimp only
      rw [setNext_other _ _ _ _ hxt, hUpd_other _ _ _ _ hxf]
    · intro x hxf hxl
      have hxt : x ≠ t := fun hxe => hxl (by rw [List.getLast?_concat, hxe])
      dsimp only
      rw [setNext_other _ _ _ _ hxt, hUpd_other _ _ _ _ hxf]
    · intro t0 htt0
      rw [List.getLast?_concat] at htt0
      have ht0t : t0 = t := by injection htt0 with h; exact h.symm
      subst ht0t
      have hgn : getNode (hUpd m.heap m.fresh
          (some { value := v, prev := some t0, next := none })) t0 = getNode m.heap t0 := by
        rw [getNode, getNode, hUpd_other _ _ _ _ (Nat.ne_of_lt htf)]
      dsimp only
      rw [setNext_same, hgn]

theorem pushFront_specC (v : Int) (d : Dq) (m : Mem) (L : List Nat)
    (hrep : RepC m d L) :
    ∃ d' m', pushFront v d m = (none, d', m') ∧
      RepC m' d' (m.fresh :: L) ∧
      d'.size = (d.size + 1) % M ∧ d'.allocId = d.allocId ∧
      vals m'.heap (m.fresh :: L) = v :: vals m.heap L ∧
      (∀ x, x ∉ L → x ≠ m.fresh → m'.heap x = m.heap x) ∧
      m'.fresh = m.fresh + 1 ∧
      m'.trace = m.trace ++ [MemEvent.alloc m.fresh d.allocId] ∧
      (∀ x, x ≠ m.fresh → L.head? ≠ some x → m'.heap x = m.heap x) ∧
      (∀ b0, L.head? = some b0 →
        m'.heap b0 = some { getNode m.heap b0 with prev := some m.fresh }) := by
  obtain ⟨hh, ht, hseg, hnd, hb⟩ := hrep
  rcases L with _ | ⟨a0, rest⟩
  · have hh0 : d.head = none := by simpa using hh
    have ht0 : d.tail = none := by simpa using ht
    refine ⟨{ head := some m.fresh, tail := some m.fresh, size := (d.size + 1) % M,
              allocId := d.allocId },
            { heap := hUpd m.heap m.fresh (some { value := v, prev := none, next := none }),
              fresh := m.fresh + 1,
              trace := m.trace ++ [MemEvent.alloc m.fresh d.allocId] },
            ?_, ?_, rfl, rfl, ?_, ?_, rfl, rfl, ?_, fun b0 hb0 => absurd hb0 (by simp)⟩
    · simp [pushFront, pushFrontGen, allocOk, hh0, ht0]
    · refine ⟨by simp, by simp, ?_, by simp, by simp⟩
      simp [segB, hUpd_same, nextStop]
    · simp [vals, getNode, hUpd_same]
    · intro x _ hxf
      exact hUpd_other m.heap m.fresh x _ hxf
    · intro x hxf _
      exact hUpd_other m.heap m.fresh x _ hxf
  · have hhd : d.head = some a0 := by simpa using hh
    have hLne : (a0 :: rest) ≠ [] := by simp
    obtain ⟨tl, htl⟩ : ∃ x, d.tail = some x := by
      rcases List.eq_nil_or_concat (a0 :: rest) with h | ⟨L0, t, heq⟩
      · exact absurd h hLne
      · exact ⟨t, by rw [ht, heq, List.concat_eq_append, List.getLast?_concat]⟩
    have ha0f : a0 < m.fresh := hb a0 (by simp)
    have ha0ne : a0 ∉ rest := (List.nodup_cons.1 hnd).1
    have hfr1 : ∀ x ∈ a0 :: rest,
        hUpd m.heap m.fresh (some { value := v, prev := none, next := some a0 }) x =
          m.heap x := by
      intro x hx
      exact hUpd_other m.heap m.fresh x _ (Nat.ne_of_lt (hb x hx))
    have hfa : setPrev
        (hUpd m.heap m.fresh (some { value := v, prev := none, next := some a0 }))
        a0 (some m.fresh) m.fresh = some { value := v, prev := none, next := some a0 } := by
      rw [setPrev_other _ _ _ _ (Nat.ne_of_lt ha0f).symm, hUpd_same]
    refine ⟨{ head := some m.fresh, tail := some tl, size := (d.size + 1) % M,
              allocId := d.allocId },
            { heap := setPrev
                (hUpd m.heap m.fresh (some { value := v, prev := none, next := some a0 }))
                a0 (some m.fresh),
              fresh := m.fresh + 1,
              trace := m.trace ++ [MemEvent.alloc m.fresh d.allocId] },
            ?_, ?_, rfl, rfl, ?_, ?_, rfl, rfl, ?_, ?_⟩
    · simp [pushFront, pushFrontGen, allocOk, hhd, htl]
    · refine ⟨by simp, ?_, ?_, ?_, ?_⟩
      · have hsplit : (m.fresh :: a0 :: rest) = [m.fresh] ++ (a0 :: rest) := by simp
        rw [hsplit, getLastQ_append_of_ne_nil _ _ hLne, ← ht, htl]
      · have hstep0 : segB (hUpd m.heap m.fresh
            (some { value := v, prev := none, next := some a0 }))
            none (a0 :: rest) none = true := by
          rw [segB_frame _ _ _ hfr1]
          exact hseg
        have hstep1 := segB_setPrev_head _ a0 rest none (some m.fresh) none hstep0 ha0ne
        simp only [segB, Bool.and_eq_true]
        exact ⟨by simp [hfa, nextStop], by simpa only [segB, Bool.and_eq_true] using hstep1⟩
      · rw [List.nodup_cons]
        exact ⟨fun hmem => absurd (hb _ hmem) (by simp), hnd⟩
      · intro x hx
        rcases List.mem_cons.1 hx with rfl | hx
        · simp
        · exact Nat.lt_succ_of_lt (hb x hx)
    · have hvL : vals (setPrev
          (hUpd m.heap m.fresh (some { value := v, prev := none, next := some a0 }))
          a0 (some m.fresh)) (a0 :: rest) = vals m.heap (a0 :: rest) := by
        apply vals_congr
        intro x hx
        by_cases hxa : x = a0
        · subst hxa
          rw [getNode, setPrev_same, getNode, hfr1 x hx]
          simp [getNode]
        · rw [getNode, setPrev_other _ _ _ _ hxa, hfr1 x hx]
          rfl
      have hsplit : (m.fresh :: a0 :: rest) = [m.fresh] ++ (a0 :: rest) := by simp
      rw [hsplit, vals_append, hvL]
      simp [vals, getNode, hfa]
    · intro x hxL hxf
      have hxa : x ≠ a0 := fun hxe => hxL (by simp [hxe])
      dsimp only
      rw [setPrev_other _ _ _ _ hxa, hUpd_other _ _ _ _ hxf]
    · intro x hxf hxl
      have hxa : x ≠ a0 := fun hxe => hxl (by rw [hxe]; rfl)
      dsimp only
      rw [setPrev_other _ _ _ _ hxa, hUpd_other _ _ _ _ hxf]
    · intro b0 hb0
      have hb0a : b0 = a0 := by injection hb0 with h; exact h.symm
      subst hb0a
      have hgn : getNode (hUpd m.heap m.fresh
          (some { value := v, prev := none, next := some b0 })) b0 = getNode m.heap b0 := by
        rw [getNode, getNode, hUpd_other _ _ _ _ (Nat.ne_of_lt ha0f)]
      dsimp only
      rw [setPrev_same, hgn]

theorem unsigned_dec (n : Nat) (hn : n < M) : ((n + 1) + (M - 1)) % M = n := by
  have hM := M_pos
  have h1 : (n + 1) + (M - 1) = n + M := by omega
  rw [h1, Nat.add_mod_right, Nat.mod_eq_of_lt hn]

theorem popFront_spec (d : Dq) (m : Mem) (a : Nat) (L0 : List Nat)
    (hrep : Rep m d (a :: L0)) :
    ∃ d' m', popFront d m = (none, d', m') ∧
      Rep m' d' L0 ∧
      vals m'.heap L0 = vals m.heap L0 ∧
      (∀ x, x ∉ a :: L0 → m'.heap x = m.heap x) ∧
      m'.fresh = m.fresh ∧
      m'.trace = m.trace ++ [MemEvent.dealloc a d.allocId] ∧
      d'.allocId = d.allocId := by
  obtain ⟨⟨hh, ht, hseg, hnd, hb⟩, hsz, hM⟩ := hrep
  have hhd : d.head = some a := by simpa using hh
  obtain ⟨n, hn, _, hnext, hrest⟩ := segB_cons_inv m.heap a L0 none none hseg
  have hL0M : L0.length < M := by simp at hM; omega
  have hszv : d.size = L0.length + 1 := by simpa using hsz
  have hane : a ∉ L0 := (List.nodup_cons.1 hnd).1
  rcases L0 with _ | ⟨b, L0'⟩
  · have hnx : (getNode m.heap a).next = none := by
      rw [getNode, hn]
      simpa [nextStop] using hnext
    refine ⟨{ head := none, tail := none, size := (d.size + (M - 1)) % M,
              allocId := d.allocId },
            deallocMem m a d.allocId, ?_, ?_, by simp [vals], ?_, rfl, rfl, rfl⟩
    · simp [popFront, hhd, hnx]
    · refine ⟨⟨by simp, by simp, by simp [segB], by simp, by simp⟩, ?_, by simpa using M_pos⟩
      simp only [hszv]
      simpa using unsigned_dec 0 M_pos
    · intro x hx
      have hxa : x ≠ a := by simpa using hx
      exact hUpd_other m.heap a x none hxa
  · have hnx : (getNode m.heap a).next = some b := by
      rw [getNode, hn]
      simpa [nextStop] using hnext
    have hbL0' : b ∉ L0' := (List.nodup_cons.1 (List.nodup_cons.1 hnd).2).1
    have hfr1 : ∀ x ∈ b :: L0', hUpd m.heap a none x = m.heap x := by
      intro x hx
      exact hUpd_other m.heap a x none (fun hxe => hane (hxe ▸ hx))
    refine ⟨{ head := some b, tail := d.tail, size := (d.size + (M - 1)) % M,
              allocId := d.allocId },
            { heap := setPrev (hUpd m.heap a none) b none,
              fresh := m.fresh,
              trace := m.trace ++ [MemEvent.dealloc a d.allocId] },
            ?_, ?_, ?_, ?_, rfl, rfl, rfl⟩
    · simp [popFront, hhd, hnx, deallocMem]
    · refine ⟨⟨by simp, ?_, ?_, (List.nodup_cons.1 hnd).2, ?_⟩, ?_, hL0M⟩
      · have hsplit : (a :: b :: L0') = [a] ++ (b :: L0') := by simp
        rw [ht, hsplit, getLastQ_append_of_ne_nil _ _ (by simp)]
      · have hstep0 : segB (hUpd m.heap a none) (some a) (b :: L0') none = true := by
          rw [segB_frame _ _ _ hfr1]
          exact hrest
        exact segB_setPrev_head _ b L0' (some a) none none hstep0 hbL0'
      · intro x hx
        exact hb x (by simp [hx])
      · simp only [hszv]
        exact unsigned_dec _ hL0M
    · apply vals_congr
      intro x hx
      dsimp only [getNode]
      by_cases hxb : x = b
      · subst hxb
        rw [setPrev_same, getNode, hfr1 x hx]
        rfl
      · rw [setPrev_other _ _ _ _ hxb, hfr1 x hx]
    · intro x hx
      have hxa : x ≠ a := fun hxe => hx (by simp [hxe])
      have hxb : x ≠ b := fun hxe => hx (by simp [hxe])
      dsimp only
      rw [setPrev_other _ _ _ _ hxb, hUpd_other _ _ _ _ hxa]

theorem popBack_spec (d : Dq) (m : Mem) (t : Nat) (L0 : List Nat)
    (hrep : Rep m d (L0 ++ [t])) :
    ∃ d' m', popBack d m = (none, d', m') ∧
      Rep m' d' L0 ∧
      vals m'.heap L0 = vals m.heap L0 ∧
      (∀ x, x ∉ L0 ++ [t] → m'.heap x = m.heap x) ∧
      m'.fresh = m.fresh ∧
      m'.trace = m.trace ++ [MemEvent.dealloc t d.allocId] ∧
      d'.allocId = d.allocId := by
  obtain ⟨⟨hh, ht, hseg, hnd, hb⟩, hsz, hM⟩ := hrep
  have htl : d.tail = some t := by rw [ht, List.getLast?_concat]
  obtain ⟨n, hn, hprev, _, hL0seg⟩ := segB_snoc_inv m.heap L0 t none none hseg
  have hL0M : L0.length < M := by simp at hM; omega
  have hszv : d.size = L0.length + 1 := by simpa using hsz
  have htne : t ∉ L0 := by
    have hdisj := (List.nodup_append.1 hnd).2.2
    intro hmem
    exact hdisj hmem (by simp)
  rcases List.eq_nil_or_concat L0 with rfl | ⟨L0', t2, heq⟩
  · have hpv : (getNode m.heap t).prev = none := by
      rw [getNode, hn]
      simpa [lastStop] using hprev
    refine ⟨{ head := none, tail := none, size := (d.size + (M - 1)) % M,
              allocId := d.allocId },
            deallocMem m t d.allocId, ?_, ?_, by simp [vals], ?_, rfl, rfl, rfl⟩
    · simp [popBack, htl, hpv]
    · refine ⟨⟨by simp, by simp, by simp [segB], by simp, by simp⟩, ?_, by simpa using M_pos⟩
      simp only [hszv]
      simpa using unsigned_dec 0 M_pos
    · intro x hx
      have hxt : x ≠ t := by simpa using hx
      exact hUpd_other m.heap t x none hxt
  · rw [List.concat_eq_append] at heq
    subst heq
    have hpv : (getNode m.heap t).prev = some t2 := by
      rw [getNode, hn, Option.getD_some, hprev, lastStop_of_ne_nil none _ (by simp),
        List.getLast?_concat]
    have ht2 : t2 ∉ L0' := by
      have hdisj := (List.nodup_append.1 (List.nodup_append.1 hnd).1).2.2
      intro hmem
      exact hdisj hmem (by simp)
    have hfr1 : ∀ x ∈ L0' ++ [t2], hUpd m.heap t none x = m.heap x := by
      intro x hx
      exact hUpd_other m.heap t x none (fun hxe => htne (hxe ▸ hx))
    refine ⟨{ head := d.head, tail := some t2, size := (d.size + (M - 1)) % M,
              allocId := d.allocId },
            { heap := setNext (hUpd m.heap t none) t2 none,
              fresh := m.fresh,
              trace := m.trace ++ [MemEvent.dealloc t d.allocId] },
            ?_, ?_, ?_, ?_, rfl, rfl, rfl⟩
    · simp [popBack, htl, hpv, deallocMem]
    · refine ⟨⟨?_, ?_, ?_, (List.nodup_append.1 hnd).1, ?_⟩, ?_, hL0M⟩
      · rw [hh, headQ_append_of_ne_nil _ _ (by simp)]
      · rw [List.getLast?_concat]
      · have hstep0 : segB (hUpd m.heap t none) none (L0' ++ [t2]) (some t) = true := by
          rw [segB_frame _ _ _ hfr1]
          exact hL0seg
        exact segB_setNext_last _ L0' t2 none (some t) none hstep0 ht2
      · intro x hx
        exact hb x (by simp [List.mem_append] at hx ⊢; tauto)
      · simp only [hszv]
        exact unsigned_dec _ hL0M
    · apply vals_congr
      intro x hx
      dsimp only [getNode]
      by_cases hxt2 : x = t2
      · subst hxt2
        rw [setNext_same, getNode, hfr1 x hx]
        rfl
      · rw [setNext_other _ _ _ _ hxt2, hfr1 x hx]
    · intro x hx
      have hxt : x ≠ t := fun hxe => hx (by simp [hxe])
      have hxt2 : x ≠ t2 := fun hxe => hx (by simp [hxe, List.mem_append])
      dsimp only
      rw [setNext_other _ _ _ _ hxt2, hUpd_other _ _ _ _ hxt]

theorem Rep_empty (m : Mem) (d : Dq) (hh : d.head = none) (ht : d.tail = none)
    (hs : d.size = 0) : Rep m d [] := by
  refine ⟨⟨by simp [hh], by simp [ht], by simp [segB], by simp, by simp⟩, by simp [hs], ?_⟩
  simpa using M_pos

theorem clearLoop_spec (L : List Nat) :
    ∀ d m, Rep m d L →
    ∃ d' m', clearLoop L.length d m = (d', m') ∧
      d'.head = none ∧ d'.tail = none ∧ d'.size = 0 ∧ d'.allocId = d.allocId ∧
      (∀ x, x ∉ L → m'.heap x = m.heap x) ∧
      m'.fresh = m.fresh ∧
      m'.trace = m.trace ++ L.reverse.map (fun a => MemEvent.dealloc a d.allocId) := by
  induction L using List.reverseRecOn with
  | nil =>
    intro d m hrep
    obtain ⟨⟨hh, ht, _, _, _⟩, hsz, _⟩ := hrep
    exact ⟨d, m, rfl, by simpa using hh, by simpa using ht, by simpa using hsz, rfl,
      fun x _ => rfl, rfl, by simp⟩
  | append_singleton L0 t ih =>
    intro d m hrep
    obtain ⟨hd, hhd⟩ : ∃ x, d.head = some x := by
      have hh := hrep.1.1
      rcases L0 with _ | ⟨c, L0'⟩
      · exact ⟨t, by simpa using hh⟩
      · exact ⟨c, by simpa using hh⟩
    obtain ⟨d1, m1, hpop, hrep1, _, hfr, hfresh, htr, hid⟩ := popBack_spec d m t L0 hrep
    obtain ⟨d', m', hloop, hh', ht', hs', hid', hfr', hfresh', htr'⟩ := ih d1 m1 hrep1
    have hunfold : clearLoop (L0 ++ [t]).length d m = clearLoop L0.length d1 m1 := by
      have hlen : (L0 ++ [t]).length = L0.length + 1 := by simp
      rw [hlen]
      simp only [clearLoop, hhd, hpop]
    refine ⟨d', m', by rw [hunfold]; exact hloop, hh', ht', hs', by rw [hid', hid], ?_, ?_, ?_⟩
    · intro x hx
      have hx0 : x ∉ L0 := fun hmem => hx (by simp [hmem])
      rw [hfr' x hx0, hfr x hx]
    · rw [hfresh', hfresh]
    · rw [htr', htr, hid]
      simp

theorem clear_spec (d : Dq) (m : Mem) (L : List Nat) (hrep : Rep m d L) :
    ∃ d' m', clear d m = (d', m') ∧
      d'.head = none ∧ d'.tail = none ∧ d'.size = 0 ∧ d'.allocId = d.allocId ∧
      Rep m' d' [] ∧
      (∀ x, x ∉ L → m'.heap x = m.heap x) ∧
      m'.fresh = m.fresh ∧
      m'.trace = m.trace ++ L.reverse.map (fun a => MemEvent.dealloc a d.allocId) := by
  have hsz : d.size = L.length := hrep.2.1
  obtain ⟨d', m', hloop, hh', ht', hs', hid', hfr', hfresh', htr'⟩ := clearLoop_spec L d m hrep
  refine ⟨d', m', ?_, hh', ht', hs', hid', Rep_empty m' d' hh' ht' hs', hfr', hfresh', htr'⟩
  rw [clear, hsz]
  exact hloop

theorem copyLoop_specC (Lrem : List Nat) :
    ∀ (vp : Option Nat) (d : Dq) (LD : List Nat) (m : Mem),
    segB m.heap vp Lrem none = true →
    (∀ a ∈ Lrem, a < m.fresh) →
    Lrem.Nodup →
    (∀ a ∈ Lrem, a ∉ LD) →
    RepC m d LD →
    d.size < M →
    ∃ Lnew d' m', copyLoop Lrem.length Lrem.head? d m = (d', m') ∧
      RepC m' d' (LD ++ Lnew) ∧
      d'.size = (d.size + Lrem.length) % M ∧
      d'.allocId = d.allocId ∧
      Lnew.length = Lrem.length ∧
      vals m'.heap (LD ++ Lnew) = vals m.heap LD ++ vals m.heap Lrem ∧
      (∀ x, x < m.fresh → x ∉ LD → m'.heap x = m.heap x) ∧
      m.fresh ≤ m'.fresh ∧
      (∀ a ∈ Lnew, m.fresh ≤ a) := by
  induction Lrem with
  | nil =>
    intro vp d LD m _ _ _ _ hrepD hszM
    refine ⟨[], d, m, rfl, by simpa using hrepD, ?_, rfl, rfl, by simp [vals],
      fun x _ _ => rfl, le_refl _, by simp⟩
    simpa using (Nat.mod_eq_of_lt hszM).symm
  | cons a rest ih =>
    intro vp d LD m hseg hbnd hnd hdj hrepD hszM
    obtain ⟨n, hn, _, hnext, hrest⟩ := segB_cons_inv m.heap a rest vp none hseg
    have haf : a < m.fresh := hbnd a (by simp)
    have haLD : a ∉ LD := hdj a (by simp)
    obtain ⟨d1, m1, hpush, hrep1, hsz1, hid1, hvals1, hfr1, hfresh1, _, _, _⟩ :=
      pushBack_specC (getNode m.heap a).value d m LD hrepD
    have hm1a : m1.heap a = m.heap a := hfr1 a haLD (Nat.ne_of_lt haf)
    have hnexteq : (getNode m1.heap a).next = rest.head? := by
      rw [getNode, hm1a, hn, Option.getD_some, hnext, nextStop_none]
    have hag : ∀ x ∈ rest, m1.heap x = m.heap x := fun x hx =>
      hfr1 x (hdj x (by simp [hx])) (Nat.ne_of_lt (hbnd x (by simp [hx])))
    have hsegr : segB m1.heap (some a) rest none = true := by
      rw [segB_frame m.heap m1.heap rest hag (some a) none]
      exact hrest
    obtain ⟨Lnew', d', m', hloop, hrep', hsz', hid', hlen', hvals', hfr', hfresh', hges'⟩ :=
      ih (some a) d1 (LD ++ [m.fresh]) m1 hsegr
        (fun x hx => by rw [hfresh1]; exact Nat.lt_succ_of_lt (hbnd x (by simp [hx])))
        ((List.nodup_cons.1 hnd).2)
        (fun x hx => by
          intro hmem
          rcases List.mem_append.1 hmem with hm | hm
          · exact hdj x (by simp [hx]) hm
          · simp only [List.mem_singleton] at hm
            exact absurd (hbnd x (by simp [hx])) (by simp [hm]))
        hrep1
        (by rw [hsz1]; exact Nat.mod_lt _ M_pos)
    have hunfold : copyLoop (a :: rest).length (a :: rest).head? d m = (d', m') := by
      show copyLoop (rest.length + 1) (some a) d m = (d', m')
      simp only [copyLoop, hpush, hnexteq]
      exact hloop
    refine ⟨m.fresh :: Lnew', d', m', hunfold, ?_, ?_, by rw [hid', hid1], by simp [hlen'],
      ?_, ?_, ?_, ?_⟩
    · rw [List.append_cons]
      exact hrep'
    · rw [hsz', hsz1, Nat.mod_add_mod]
      congr 1
      simp only [List.length_cons]
      omega
    · rw [List.append_cons, hvals', hvals1]
      have hvr : vals m1.heap rest = vals m.heap rest := by
        apply vals_congr
        intro x hx
        rw [getNode, hag x hx]
        rfl
      rw [hvr]
      simp [vals]
    · intro x hxf hxLD
      have hx1 : m'.heap x = m1.heap x := by
        apply hfr' x (by rw [hfresh1]; exact Nat.lt_succ_of_lt hxf)
        intro hmem
        rcases List.mem_append.1 hmem with hm | hm
        · exact hxLD hm
        · simp only [List.mem_singleton] at hm
          exact absurd hxf (by simp [hm])
      rw [hx1, hfr1 x hxLD (Nat.ne_of_lt hxf)]
    · calc m.fresh ≤ m1.fresh := by rw [hfresh1]; exact Nat.le_succ _
        _ ≤ m'.fresh := hfresh'
    · intro x hx
      rcases List.mem_cons.1 hx with rfl | hx
      · exact le_refl _
      · calc m.fresh ≤ m1.fresh := by rw [hfresh1]; exact Nat.le_succ _
          _ ≤ x := hges' x hx

theorem pushBack_spec (v : Int) (d : Dq) (m : Mem) (L : List Nat)
    (hrep : Rep m d L) (hbig : L.length + 1 < M) :
    ∃ d' m', pushBack v d m = (none, d', m') ∧
      Rep m' d' (L ++ [m.fresh]) ∧
      vals m'.heap (L ++ [m.fresh]) = vals m.heap L ++ [v] ∧
      (∀ x, x ∉ L → x ≠ m.fresh → m'.heap x = m.heap x) ∧
      m'.fresh = m.fresh + 1 ∧
      m'.trace = m.trace ++ [MemEvent.alloc m.fresh d.allocId] ∧
      d'.allocId = d.allocId := by
  obtain ⟨hrepC, hsz, _⟩ := hrep
  obtain ⟨d', m', hpush, hrepC', hsz', hid', hvals', hfr', hfresh', htr', _, _⟩ :=
    pushBack_specC v d m L hrepC
  refine ⟨d', m', hpush, ⟨hrepC', ?_, by simpa using hbig⟩, hvals', hfr', hfresh', htr', hid'⟩
  rw [hsz', hsz, Nat.mod_eq_of_lt hbig]
  simp

theorem pushFront_spec (v : Int) (d : Dq) (m : Mem) (L : List Nat)
    (hrep : Rep m d L) (hbig : L.length + 1 < M) :
    ∃ d' m', pushFront v d m = (none, d', m') ∧
      Rep m' d' (m.fresh :: L) ∧
      vals m'.heap (m.fresh :: L) = v :: vals m.heap L ∧
      (∀ x, x ∉ L → x ≠ m.fresh → m'.heap x = m.heap x) ∧
      m'.fresh = m.fresh + 1 ∧
      m'.trace = m.trace ++ [MemEvent.alloc m.fresh d.allocId] ∧
      d'.allocId = d.allocId := by
  obtain ⟨hrepC, hsz, _⟩ := hrep
  obtain ⟨d', m', hpush, hrepC', hsz', hid', hvals', hfr', hfresh', htr', _, _⟩ :=
    pushFront_specC v d m L hrepC
  refine ⟨d', m', hpush, ⟨hrepC', ?_, by simpa using hbig⟩, hvals', hfr', hfresh', htr', hid'⟩
  rw [hsz', hsz, Nat.mod_eq_of_lt hbig]
  simp

theorem pushBackList_spec (vs : List Int) :
    ∀ (d : Dq) (L : List Nat) (m : Mem), Rep m d L → L.length + vs.length < M →
    ∃ Lnew d' m', pushBackList vs d m = (d', m') ∧
      Rep m' d' (L ++ Lnew) ∧
      vals m'.heap (L ++ Lnew) = vals m.heap L ++ vs ∧
      Lnew.length = vs.length ∧
      (∀ x, x ∉ L → x < m.fresh → m'.heap x = m.heap x) ∧
      m.fresh ≤ m'.fresh ∧
      (∀ a ∈ Lnew, m.fresh ≤ a) ∧
      d'.allocId = d.allocId := by
  induction vs with
  | nil =>
    intro d L m hrep _
    exact ⟨[], d, m, rfl, by simpa using hrep, by simp [vals], rfl,
      fun x _ _ => rfl, le_refl _, by simp, rfl⟩
  | cons v rest ih =>
    intro d L m hrep hbig
    obtain ⟨d1, m1, hpush, hrep1, hvals1, hfr1, hfresh1, _, hid1⟩ :=
      pushBack_spec v d m L hrep (by simp only [List.length_cons] at hbig; omega)
    obtain ⟨Lnew', d', m', hloop, hrep', hvals', hlen', hfr', hfresh', hges', hid'⟩ :=
      ih d1 (L ++ [m.fresh]) m1 hrep1
        (by simp only [List.length_append, List.length_cons, List.length_nil] at hbig ⊢
            omega)
    have hunfold : pushBackList (v :: rest) d m = (d', m') := by
      simp only [pushBackList, hpush]
      exact hloop
    refine ⟨m.fresh :: Lnew', d', m', hunfold, ?_, ?_, by simp [hlen'], ?_, ?_, ?_,
      hid'.trans hid1⟩
    · rw [List.append_cons]
      exact hrep'
    · rw [List.append_cons, hvals', hvals1]
      simp
    · intro x hxL hxf
      have hx1 : m'.heap x = m1.heap x := by
        apply hfr' x ?_ (by rw [hfresh1]; exact Nat.lt_succ_of_lt hxf)
        intro hmem
        rcases List.mem_append.1 hmem with hm | hm
        · exact hxL hm
        · simp only [List.mem_singleton] at hm
          exact absurd hxf (by simp [hm])
      rw [hx1, hfr1 x hxL (Nat.ne_of_lt hxf)]
    · calc m.fresh ≤ m1.fresh := by rw [hfresh1]; exact Nat.le_succ _
        _ ≤ m'.fresh := hfresh'
    · intro x hx
      rcases List.mem_cons.1 hx with rfl | hx
      · exact le_refl _
      · calc m.fresh ≤ m1.fresh := by rw [hfresh1]; exact Nat.le_succ _
          _ ≤ x := hges' x hx

theorem copyInto_spec (src : Dq) (LS : List Nat) (d : Dq) (LD : List Nat) (m : Mem)
    (hsrc : Rep m src LS) (hd : Rep m d LD)
    (hdj : ∀ a ∈ LS, a ∉ LD)
    (hbig : LD.length + LS.length < M) :
    ∃ Lnew d' m', copyLoop src.size src.head d m = (d', m') ∧
      Rep m' d' (LD ++ Lnew) ∧
      vals m'.heap (LD ++ Lnew) = vals m.heap LD ++ vals m.heap LS ∧
      Lnew.length = LS.length ∧
      (∀ x, x < m.fresh → x ∉ LD → m'.heap x = m.heap x) ∧
      m.fresh ≤ m'.fresh ∧
      (∀ a ∈ Lnew, m.fresh ≤ a) ∧
      d'.allocId = d.allocId := by
  obtain ⟨⟨hh, _, hseg, hnd, hb⟩, hsz, _⟩ := hsrc
  obtain ⟨hrepD, hszD, hLDM⟩ := hd
  obtain ⟨Lnew, d', m', hloop, hrep', hsz', hid', hlen', hvals', hfr', hfresh', hges'⟩ :=
    copyLoop_specC LS none d LD m hseg hb hnd hdj hrepD (by rw [hszD]; exact hLDM)
  refine ⟨Lnew, d', m', by rw [hsz, hh]; exact hloop, ⟨hrep', ?_, ?_⟩, hvals', hlen',
    hfr', hfresh', hges', hid'⟩
  · rw [hsz', hszD, Nat.mod_eq_of_lt hbig]
    simp [hlen']
  · simp [hlen']
    omega

theorem addOtherMove_spec (dA dB : Dq) (m : Mem) (LA LB : List Nat)
    (hA : Rep m dA LA) (hB : Rep m dB LB) (hdj : ∀ a ∈ LA, a ∉ LB)
    (hbig : LA.length + LB.length < M) :
    ∃ d' s' m', addOtherMove dA dB m = (d', s', m') ∧
      Rep m' d' (LA ++ LB) ∧
      vals m'.heap (LA ++ LB) = vals m.heap LA ++ vals m.heap LB ∧
      d'.size = dA.size + dB.size ∧
      d'.allocId = dA.allocId ∧
      s'.head = none ∧ s'.tail = none ∧ s'.size = 0 ∧ s'.allocId = dB.allocId ∧
      Rep m' s' [] ∧
      m'.fresh = m.fresh ∧ m'.trace = m.trace := by
  obtain ⟨⟨hhA, htA, hsegA, hndA, hbA⟩, hszA, hLAM⟩ := hA
  obtain ⟨⟨hhB, htB, hsegB, hndB, hbB⟩, hszB, hLBM⟩ := hB
  rcases List.eq_nil_or_concat LA with rfl | ⟨LA0, t, heqA⟩
  · have htA0 : dA.tail = none := by simpa using htA
    have hszA0 : dA.size = 0 := by simpa using hszA
    refine ⟨{ head := dB.head, tail := dB.tail, size := dB.size, allocId := dA.allocId },
            { head := none, tail := none, size := 0, allocId := dB.allocId }, m,
            ?_, ?_, by simp [vals], by dsimp only; omega, rfl, rfl, rfl, rfl, rfl, ?_, rfl, rfl⟩
    · simp [addOtherMove, htA0]
    · exact ⟨⟨by simpa using hhB, by simpa using htB, by simpa using hsegB,
        by simpa using hndB, by simpa using hbB⟩, by simpa using hszB, by simpa using hLBM⟩
    · exact Rep_empty _ _ rfl rfl rfl
  · rw [List.concat_eq_append] at heqA
    subst heqA
    have htl : dA.tail = some t := by rw [htA, List.getLast?_concat]
    have htLA : t ∈ LA0 ++ [t] := by simp
    rcases LB with _ | ⟨b, LB0⟩
    · have hhB0 : dB.head = none := by simpa using hhB
      have hszB0 : dB.size = 0 := by simpa using hszB
      have htB0 : dB.tail = none := by simpa using htB
      refine ⟨dA, dB, m, ?_, ?_, by simp [vals], by omega, rfl, hhB0, htB0, hszB0, rfl, ?_, rfl, rfl⟩
      · simp [addOtherMove, htl, hhB0]
      · exact ⟨⟨by simpa using hhA, by simpa using htA, by simpa using hsegA,
          by simpa using hndA, by simpa using hbA⟩, by simpa using hszA, by simpa using hLAM⟩
      · exact Rep_empty _ _ hhB0 htB0 hszB0
    · have hhb : dB.head = some b := by simpa using hhB
      have htne : t ∉ LA0 := by
        have hdisj := (List.nodup_append.1 hndA).2.2
        intro hmem
        exact hdisj hmem (by simp)
      have hbnotA : b ∉ LA0 ++ [t] := fun hmem => hdj b hmem (by simp)
      have htnotB : t ∉ b :: LB0 := hdj t htLA
      have hbt : b ≠ t := fun hbe => htnotB (by simp [← hbe])
      have hbLB0 : b ∉ LB0 := (List.nodup_cons.1 hndB).1
      refine ⟨{ head := dA.head, tail := dB.tail, size := (dA.size + dB.size) % M,
                allocId := dA.allocId },
              { head := none, tail := none, size := 0, allocId := dB.allocId },
              { heap := setPrev (setNext m.heap t (some b)) b (some t),
                fresh := m.fresh, trace := m.trace },
              ?_, ?_, ?_, ?_, rfl, rfl, rfl, rfl, rfl, ?_, rfl, rfl⟩
      · simp [addOtherMove, htl, hhb]
      · refine ⟨⟨?_, ?_, ?_, ?_, ?_⟩, ?_, ?_⟩
        · rw [hhA, headQ_append_of_ne_nil (LA0 ++ [t]) (b :: LB0) (by simp)]
        · rw [htB, getLastQ_append_of_ne_nil (LA0 ++ [t]) (b :: LB0) (by simp)]
        · rw [segB_append]
          simp only [Bool.and_eq_true]
          constructor
          · have hstep1 := segB_setNext_last m.heap LA0 t none none (some b) hsegA htne
            have hstep2 : segB (setPrev (setNext m.heap t (some b)) b (some t)) none
                (LA0 ++ [t]) (some b) =
                segB (setNext m.heap t (some b)) none (LA0 ++ [t]) (some b) := by
              apply segB_frame
              intro x hx
              exact setPrev_other _ b x _ (fun hxe => hbnotA (hxe ▸ hx))
            rw [show nextStop (b :: LB0) none = some b from rfl, hstep2]
            exact hstep1
          · have hstep1 : segB (setNext m.heap t (some b)) none (b :: LB0) none = true := by
              rw [segB_frame m.heap _ _ (fun x hx =>
                setNext_other _ t x _ (fun hxe => htnotB (hxe ▸ hx)))]
              exact hsegB
            have hstep2 := segB_setPrev_head (setNext m.heap t (some b)) b LB0
              none (some t) none hstep1 hbLB0
            rw [lastStop_of_ne_nil _ _ (by simp), List.getLast?_concat]
            exact hstep2
        · rw [List.nodup_append]
          exact ⟨hndA, hndB, fun a ha => hdj a ha⟩
        · intro x hx
          rcases List.mem_append.1 hx with hm | hm
          · exact hbA x hm
          · exact hbB x hm
        · have hlt : (LA0 ++ [t]).length + (b :: LB0).length < M := hbig
          rw [hszA, hszB, Nat.mod_eq_of_lt hlt]
          simp only [List.length_append, List.length_cons]
        · simp only [List.length_append, List.length_cons] at hbig ⊢
          omega
      · have hvc : vals (setPrev (setNext m.heap t (some b)) b (some t))
            ((LA0 ++ [t]) ++ b :: LB0) = vals m.heap ((LA0 ++ [t]) ++ b :: LB0) := by
          apply vals_congr
          intro x hx
          dsimp only [getNode]
          by_cases hxb : x = b
          · subst hxb
            rw [setPrev_same, getNode, setNext_other _ _ _ _ hbt]
            rfl
          · rw [setPrev_other _ _ _ _ hxb]
            by_cases hxt : x = t
            · subst hxt
              rw [setNext_same, getNode]
              rfl
            · rw [setNext_other _ _ _ _ hxt]
        rw [hvc, vals_append]
      · have hlt : (LA0 ++ [t]).length + (b :: LB0).length < M := hbig
        dsimp only
        rw [hszA, hszB, Nat.mod_eq_of_lt hlt]
      · exact Rep_empty _ _ rfl rfl rfl

/-! ## Raw size/head behaviour of repeated pushes (no invariant needed) -/

theorem pushBack_size_head (v : Int) (d : Dq) (m : Mem) :
    (pushBack v d m).2.1.size = (d.size + 1) % M ∧
    ∀ a, d.head = some a → (pushBack v d m).2.1.head = some a := by
  constructor
  · simp [pushBack, pushBackGen, allocOk]
  · intro a ha
    simp [pushBack, pushBackGen, allocOk, ha]

theorem pushBackList_size_head (vs : List Int) :
    ∀ d m, d.size < M →
      (pushBackList vs d m).1.size = (d.size + vs.length) % M ∧
      ∀ a, d.head = some a → (pushBackList vs d m).1.head = some a := by
  induction vs with
  | nil =>
    intro d m hd
    exact ⟨by simp [pushBackList, Nat.mod_eq_of_lt hd], fun a ha => by simp [pushBackList, ha]⟩
  | cons v rest ih =>
    intro d m hd
    have h1 := pushBack_size_head v d m
    have hlt : (pushBack v d m).2.1.size < M := by
      rw [h1.1]
      exact Nat.mod_lt _ M_pos
    obtain ⟨hsz, hhd⟩ := ih (pushBack v d m).2.1 (pushBack v d m).2.2 hlt
    constructor
    · show (pushBackList rest (pushBack v d m).2.1 (pushBack v d m).2.2).1.size = _
      rw [hsz, h1.1, Nat.mod_add_mod]
      congr 1
      simp only [List.length_cons]
      omega
    · intro a ha
      show (pushBackList rest (pushBack v d m).2.1 (pushBack v d m).2.2).1.head = some a
      exact hhd a (h1.2 a ha)

/-! ## Which allocator instance performs each ghost event -/

theorem traceRespects_of_const_id (tr : List MemEvent) (i : Nat)
    (hall : ∀ e ∈ tr, evtId e = i) : traceRespectsAllocator tr = true := by
  rw [traceRespectsAllocator, List.all_eq_true]
  intro e he
  cases e with
  | alloc a j => simp
  | dealloc a j =>
    simp only [List.all_eq_true]
    intro e2 he2
    cases e2 with
    | alloc a2 j2 =>
      have h2 : j2 = i := hall _ he2
      have h1 : j = i := hall _ he
      simp [h1, h2]
    | dealloc _ _ => simp

theorem popBack_trace (d : Dq) (m : Mem) :
    (popBack d m).2.1.allocId = d.allocId ∧
    ∀ e ∈ (popBack d m).2.2.trace, e ∈ m.trace ∨ evtId e = d.allocId := by
  rcases hd : d.tail with _ | a
  · constructor
    · simp [popBack, hd]
    · intro e he
      simp only [popBack, hd] at he
      exact Or.inl he
  · rcases hp : (getNode m.heap a).prev with _ | b
    · constructor
      · simp [popBack, hd, hp]
      · intro e he
        simp only [popBack, hd, hp, deallocMem] at he
        rcases List.mem_append.1 he with h | h
        · exact Or.inl h
        · simp only [List.mem_singleton] at h
          subst h
          exact Or.inr rfl
    · constructor
      · simp [popBack, hd, hp]
      · intro e he
        simp only [popBack, hd, hp] at he
        rcases List.mem_append.1 he with h | h
        · exact Or.inl h
        · simp only [List.mem_singleton] at h
          subst h
          exact Or.inr rfl

theorem clearLoop_trace (fuel : Nat) :
    ∀ d m, (clearLoop fuel d m).1.allocId = d.allocId ∧
      ∀ e ∈ (clearLoop fuel d m).2.trace, e ∈ m.trace ∨ evtId e = d.allocId := by
  induction fuel with
  | zero => intro d m; exact ⟨rfl, fun e he => Or.inl he⟩
  | succ n ih =>
    intro d m
    rcases hh : d.head with _ | a
    · constructor
      · simp [clearLoop, hh]
      · intro e he
        simp only [clearLoop, hh] at he
        exact Or.inl he
    · obtain ⟨hid1, htr1⟩ := popBack_trace d m
      obtain ⟨hid2, htr2⟩ := ih (popBack d m).2.1 (popBack d m).2.2
      constructor
      · have hid : (clearLoop (n + 1) d m).1.allocId =
            (clearLoop n (popBack d m).2.1 (popBack d m).2.2).1.allocId := by
          simp only [clearLoop, hh]
        rw [hid, hid2, hid1]
      · intro e he
        have he' : e ∈ (clearLoop n (popBack d m).2.1 (popBack d m).2.2).2.trace := by
          simpa only [clearLoop, hh] using he
        rcases htr2 e he' with h | h
        · rcases htr1 e h with h2 | h2
          · exact Or.inl h2
          · exact Or.inr h2
        · exact Or.inr (by rw [h, hid1])

theorem pushBackList_trace (vs : List Int) :
    ∀ d m, (pushBackList vs d m).1.allocId = d.allocId ∧
      ∀ e ∈ (pushBackList vs d m).2.trace, e ∈ m.trace ∨ evtId e = d.allocId := by
  induction vs with
  | nil => intro d m; exact ⟨rfl, fun e he => Or.inl he⟩
  | cons v rest ih =>
    intro d m
    have hpush1 : (pushBack v d m).2.1.allocId = d.allocId := by
      simp [pushBack, pushBackGen, allocOk]
    have hpushtr : ∀ e ∈ (pushBack v d m).2.2.trace, e ∈ m.trace ∨ evtId e = d.allocId := by
      intro e he
      simp only [pushBack, pushBackGen, allocOk] at he
      rcases List.mem_append.1 he with h | h
      · exact Or.inl h
      · simp only [List.mem_singleton] at h
        subst h
        exact Or.inr rfl
    obtain ⟨hid2, htr2⟩ := ih (pushBack v d m).2.1 (pushBack v d m).2.2
    constructor
    · show (pushBackList rest (pushBack v d m).2.1 (pushBack v d m).2.2).1.allocId = _
      rw [hid2, hpush1]
    · intro e he
      have he' : e ∈ (pushBackList rest (pushBack v d m).2.1 (pushBack v d m).2.2).2.trace := he
      rcases htr2 e he' with h | h
      · rcases hpushtr e h with h2 | h2
        · exact Or.inl h2
        · exact Or.inr h2
      · exact Or.inr (by rw [h, hpush1])

/-! ## A push followed by a pop at the same end restores the deque -/

theorem pushBack_popBack_id (v : Int) (d : Dq) (m : Mem) (L : List Nat)
    (hrep : Rep m d L) :
    ∃ m', popBack (pushBack v d m).2.1 (pushBack v d m).2.2 = (none, d, m') ∧
      (∀ x ∈ L, m'.heap x = m.heap x) ∧ vals m'.heap L = vals m.heap L := by
  obtain ⟨⟨hh, ht, hseg, hnd, hb⟩, hsz, hMlt⟩ := hrep
  have hszlt : d.size < M := by rw [hsz]; exact hMlt
  obtain ⟨d1, m1, hpush, ⟨hh1, ht1, hseg1, hnd1, hb1⟩, hsz1, hid1, hvals1, hfr1, hfresh1, _,
    hsfr1, htail1⟩ := pushBack_specC v d m L ⟨hh, ht, hseg, hnd, hb⟩
  have e1 : (pushBack v d m).2.1 = d1 := by rw [hpush]
  have e2 : (pushBack v d m).2.2 = m1 := by rw [hpush]
  have htl1 : d1.tail = some m.fresh := by rw [ht1, List.getLast?_concat]
  obtain ⟨nf, hnf, hnfprev, _, _⟩ := segB_snoc_inv m1.heap L m.fresh none none hseg1
  have hprv : (getNode m1.heap m.fresh).prev = lastStop none L := by
    rw [getNode, hnf, Option.getD_some, hnfprev]
  have hszpop : (d1.size + (M - 1)) % M = d.size := by
    rw [hsz1, Nat.mod_add_mod]
    exact unsigned_dec d.size hszlt
  rcases List.eq_nil_or_concat L with rfl | ⟨L0, t, rfl⟩
  · have hprv0 : (getNode m1.heap m.fresh).prev = none := by rw [hprv]; rfl
    have hpop : popBack d1 m1 =
        (none, { head := none, tail := none, size := (d1.size + (M - 1)) % M,
                 allocId := d1.allocId }, deallocMem m1 m.fresh d1.allocId) := by
      simp [popBack, htl1, hprv0]
    have hdeq : (⟨none, none, (d1.size + (M - 1)) % M, d1.allocId⟩ : Dq) = d := by
      have h1 : d.head = none := by simpa using hh
      have h2 : d.tail = none := by simpa using ht
      rcases d with ⟨dh, dt, ds, di⟩
      simp only [Dq.mk.injEq]
      exact ⟨h1.symm, h2.symm, hszpop, hid1⟩
    exact ⟨deallocMem m1 m.fresh d1.allocId, by rw [e1, e2, hpop, hdeq], by simp,
      by simp [vals]⟩
  · rw [List.concat_eq_append] at *
    have hLne : L0 ++ [t] ≠ [] := by simp
    have hprv2 : (getNode m1.heap m.fresh).prev = some t := by
      rw [hprv, lastStop_of_ne_nil none _ hLne, List.getLast?_concat]
    have hfne : ∀ x ∈ L0 ++ [t], x ≠ m.fresh := fun x hx => Nat.ne_of_lt (hb x hx)
    have hpop : popBack d1 m1 =
        (none, { head := d1.head, tail := some t, size := (d1.size + (M - 1)) % M,
                 allocId := d1.allocId },
         { heap := setNext (hUpd m1.heap m.fresh none) t none,
           fresh := m1.fresh, trace := m1.trace ++ [MemEvent.dealloc m.fresh d1.allocId] }) := by
      simp [popBack, htl1, hprv2, deallocMem]
    have hmem_t : t ∈ L0 ++ [t] := by simp
    obtain ⟨nt, hnt, _, hntnext, _⟩ := segB_snoc_inv m.heap L0 t none none hseg
    rcases nt with ⟨nv, np, nn⟩
    have hnn : nn = none := hntnext
    subst hnn
    have hg2 : m1.heap t = some { value := nv, prev := np, next := some m.fresh } := by
      rw [htail1 t (by rw [List.getLast?_concat]), getNode, hnt]
      rfl
    have hrestore : ∀ x ∈ L0 ++ [t],
        setNext (hUpd m1.heap m.fresh none) t none x = m.heap x := by
      intro x hx
      by_cases hxt : x = t
      · subst hxt
        have hg3 : getNode (hUpd m1.heap m.fresh none) x =
            { value := nv, prev := np, next := some m.fresh } := by
          rw [getNode, hUpd_other _ _ _ _ (hfne x hx), hg2]
          rfl
        rw [setNext_same, hg3, hnt]
      · rw [setNext_other _ _ _ _ hxt, hUpd_other _ _ _ _ (hfne x hx)]
        apply hsfr1 x (hfne x hx)
        rw [List.getLast?_concat]
        intro hcon
        exact hxt ((Option.some.inj hcon).symm)
    have hdeq : (⟨d1.head, some t, (d1.size + (M - 1)) % M, d1.allocId⟩ : Dq) = d := by
      have h1 : d1.head = d.head := by
        rw [hh1, headQ_append_of_ne_nil _ _ hLne, hh]
      have h2 : d.tail = some t := by rw [ht, List.getLast?_concat]
      rcases d with ⟨dh, dt, ds, di⟩
      simp only [Dq.mk.injEq]
      exact ⟨h1, h2.symm, hszpop, hid1⟩
    refine ⟨{ heap := setNext (hUpd m1.heap m.fresh none) t none,
              fresh := m1.fresh,
              trace := m1.trace ++ [MemEvent.dealloc m.fresh d1.allocId] },
            by rw [e1, e2, hpop, hdeq], fun x hx => hrestore x hx, ?_⟩
    apply vals_congr
    intro x hx
    rw [getNode, getNode]
    dsimp only
    rw [hrestore x hx]

theorem pushFront_popFront_id (v : Int) (d : Dq) (m : Mem) (L : List Nat)
    (hrep : Rep m d L) :
    ∃ m', popFront (pushFront v d m).2.1 (pushFront v d m).2.2 = (none, d, m') ∧
      (∀ x ∈ L, m'.heap x = m.heap x) ∧ vals m'.heap L = vals m.heap L := by
  obtain ⟨⟨hh, ht, hseg, hnd, hb⟩, hsz, hMlt⟩ := hrep
  have hszlt : d.size < M := by rw [hsz]; exact hMlt
  obtain ⟨d1, m1, hpush, ⟨hh1, ht1, hseg1, hnd1, hb1⟩, hsz1, hid1, hvals1, hfr1, hfresh1, _,
    hsfr1, hhead1⟩ := pushFront_specC v d m L ⟨hh, ht, hseg, hnd, hb⟩
  have e1 : (pushFront v d m).2.1 = d1 := by rw [hpush]
  have e2 : (pushFront v d m).2.2 = m1 := by rw [hpush]
  have hhd1 : d1.head = some m.fresh := by rw [hh1]; rfl
  obtain ⟨nf, hnf, _, hnfnext, _⟩ := segB_cons_inv m1.heap m.fresh L none none hseg1
  have hnxt : (getNode m1.heap m.fresh).next = L.head? := by
    rw [getNode, hnf, Option.getD_some, hnfnext, nextStop_none]
  have hszpop : (d1.size + (M - 1)) % M = d.size := by
    rw [hsz1, Nat.mod_add_mod]
    exact unsigned_dec d.size hszlt
  rcases L with _ | ⟨b, rest⟩
  · have hnx0 : (getNode m1.heap m.fresh).next = none := by rw [hnxt]; rfl
    have hpop : popFront d1 m1 =
        (none, { head := none, tail := none, size := (d1.size + (M - 1)) % M,
                 allocId := d1.allocId }, deallocMem m1 m.fresh d1.allocId) := by
      simp [popFront, hhd1, hnx0]
    have hdeq : (⟨none, none, (d1.size + (M - 1)) % M, d1.allocId⟩ : Dq) = d := by
      have h1 : d.head = none := by simpa using hh
      have h2 : d.tail = none := by simpa using ht
      rcases d with ⟨dh, dt, ds, di⟩
      simp only [Dq.mk.injEq]
      exact ⟨h1.symm, h2.symm, hszpop, hid1⟩
    exact ⟨deallocMem m1 m.fresh d1.allocId, by rw [e1, e2, hpop, hdeq], by simp,
      by simp [vals]⟩
  · have hnx2 : (getNode m1.heap m.fresh).next = some b := by rw [hnxt]; rfl
    have hfne : ∀ x ∈ b :: rest, x ≠ m.fresh := fun x hx => Nat.ne_of_lt (hb x hx)
    have hpop : popFront d1 m1 =
        (none, { head := some b, tail := d1.tail, size := (d1.size + (M - 1)) % M,
                 allocId := d1.allocId },
         { heap := setPrev (hUpd m1.heap m.fresh none) b none,
           fresh := m1.fresh, trace := m1.trace ++ [MemEvent.dealloc m.fresh d1.allocId] }) := by
      simp [popFront, hhd1, hnx2, deallocMem]
    obtain ⟨nb, hnb, hnbprev, _, _⟩ := segB_cons_inv m.heap b rest none none hseg
    rcases nb with ⟨nv, np, nn⟩
    have hnp : np = none := hnbprev
    subst hnp
    have hg2 : m1.heap b = some { value := nv, prev := some m.fresh, next := nn } := by
      rw [hhead1 b rfl, getNode, hnb]
      rfl
    have hbrest : b ∉ rest := (List.nodup_cons.1 hnd).1
    have hrestore : ∀ x ∈ b :: rest,
        setPrev (hUpd m1.heap m.fresh none) b none x = m.heap x := by
      intro x hx
      by_cases hxb : x = b
      · subst hxb
        have hg3 : getNode (hUpd m1.heap m.fresh none) x =
            { value := nv, prev := some m.fresh, next := nn } := by
          rw [getNode, hUpd_other _ _ _ _ (hfne x hx), hg2]
          rfl
        rw [setPrev_same, hg3, hnb]
      · rw [setPrev_other _ _ _ _ hxb, hUpd_other _ _ _ _ (hfne x hx)]
        apply hsfr1 x (hfne x hx)
        intro hcon
        rw [List.head?_cons] at hcon
        exact hxb ((Option.some.inj hcon).symm)
    have hdeq : (⟨some b, d1.tail, (d1.size + (M - 1)) % M, d1.allocId⟩ : Dq) = d := by
      have h1 : d.head = some b := by simpa using hh
      have h2 : d1.tail = d.tail := by
        rw [ht1, ← List.singleton_append, getLastQ_append_of_ne_nil _ _ (by simp), ht]
      rcases d with ⟨dh, dt, ds, di⟩
      simp only [Dq.mk.injEq]
      exact ⟨h1.symm, h2, hszpop, hid1⟩
    refine ⟨{ heap := setPrev (hUpd m1.heap m.fresh none) b none,
              fresh := m1.fresh,
              trace := m1.trace ++ [MemEvent.dealloc m.fresh d1.allocId] },
            by rw [e1, e2, hpop, hdeq], fun x hx => hrestore x hx, ?_⟩
    apply vals_congr
    intro x hx
    rw [getNode, getNode]
    dsimp only
    rw [hrestore x hx]

/-! ## Small framing helpers -/

theorem Rep_frame (m m' : Mem) (d : Dq) (L : List Nat)
    (hrep : Rep m d L)
    (hheap : ∀ x ∈ L, m'.heap x = m.heap x)
    (hfresh : m.fresh ≤ m'.fresh) :
    Rep m' d L := by
  obtain ⟨⟨hh, ht, hseg, hnd, hb⟩, hsz, hMb⟩ := hrep
  refine ⟨⟨hh, ht, ?_, hnd, fun a ha => lt_of_lt_of_le (hb a ha) hfresh⟩, hsz, hMb⟩
  rw [segB_frame m.heap m'.heap L hheap]
  exact hseg

theorem vals_frame (h h' : Heap) (L : List Nat) (hagree : ∀ a ∈ L, h' a = h a) :
    vals h' L = vals h L :=
  vals_congr h h' L (fun a ha => by rw [getNode, getNode, hagree a ha])

/-! ## The claims -/

/-- C1: the claim says a failed allocation inside an insertion propagates
`OutOfMemory` and leaves the deque intact.  The code never checks the
pointer returned by `allocator.alloc`: when `malloc` fails (returns
`NULL`), `PushFront`/`PushBack` (either overload) immediately execute
`tmp->value = elem`, a store through a null pointer — undefined behaviour,
not an `OutOfMemory` failure. -/
theorem C1_alloc_failure_is_null_deref :
    ∀ (v : Int) (d : Dq) (m : Mem),
      (pushFrontGen allocFail v d m).1 = some DequeError.nullDereference ∧
      (pushBackGen allocFail v d m).1 = some DequeError.nullDereference ∧
      (pushFrontGen allocFail v d m).1 ≠ some DequeError.outOfMemory ∧
      (pushBackGen allocFail v d m).1 ≠ some DequeError.outOfMemory := by
  intro v d m
  exact ⟨rfl, rfl, by simp [pushFrontGen, allocFail], by simp [pushBackGen, allocFail]⟩

/-- C8: for each of the three iterator families, dereferencing or advancing
(either increment overload) a past-the-end iterator (absent current node)
fails with `InvalidIterator`, and on a present node each operation
succeeds. -/
theorem C8_iterator_errors :
    ∀ (h : Heap) (a : Nat),
      iterDeref h none = Except.error DequeError.invalidIterator ∧
      iterIncr h none = Except.error DequeError.invalidIterator ∧
      iterIncrPost h none = Except.error DequeError.invalidIterator ∧
      citerDeref h none = Except.error DequeError.invalidIterator ∧
      citerIncr h none = Except.error DequeError.invalidIterator ∧
      citerIncrPost h none = Except.error DequeError.invalidIterator ∧
      riterDeref h none = Except.error DequeError.invalidIterator ∧
      riterIncr h none = Except.error DequeError.invalidIterator ∧
      riterIncrPost h none = Except.error DequeError.invalidIterator ∧
      iterDeref h (some a) = Except.ok (getNode h a).value ∧
      iterIncr h (some a) = Except.ok (getNode h a).next ∧
      iterIncrPost h (some a) = Except.ok (some a, (getNode h a).next) ∧
      citerDeref h (some a) = Except.ok (getNode h a).value ∧
      citerIncr h (some a) = Except.ok (getNode h a).next ∧
      citerIncrPost h (some a) = Except.ok (some a, (getNode h a).next) ∧
      riterDeref h (some a) = Except.ok (getNode h a).value ∧
      riterIncr h (some a) = Except.ok (getNode h a).prev ∧
      riterIncrPost h (some a) = Except.ok (some a, (getNode h a).prev) := by
  intro h a
  exact ⟨rfl, rfl, rfl, rfl, rfl, rfl, rfl, rfl, rfl, rfl, rfl, rfl, rfl, rfl, rfl, rfl,
    rfl, rfl⟩

/-- C7: on a deque satisfying the representation invariant, each removal
and each read (const or mutable) fails with `EmptyContainer` exactly when
the deque is empty; a failing removal returns the deque and memory
unchanged (the C++ throw precedes every mutation), and on a non-empty deque
every one of these operations succeeds (the peeks by construction read
without mutating any state). -/
theorem C7_empty_error_iff (d : Dq) (m : Mem) (L : List Nat) (hrep : Rep m d L) :
    ((popFront d m).1 = some DequeError.emptyContainer ↔ isEmpty d = true) ∧
    ((popBack d m).1 = some DequeError.emptyContainer ↔ isEmpty d = true) ∧
    (peekHead d m = Except.error DequeError.emptyContainer ↔ isEmpty d = true) ∧
    (getFront d m = Except.error DequeError.emptyContainer ↔ isEmpty d = true) ∧
    (peekTail d m = Except.error DequeError.emptyContainer ↔ isEmpty d = true) ∧
    (getBack d m = Except.error DequeError.emptyContainer ↔ isEmpty d = true) ∧
    (isEmpty d = true → popFront d m = (some DequeError.emptyContainer, d, m) ∧
      popBack d m = (some DequeError.emptyContainer, d, m)) ∧
    (isEmpty d = false →
      (popFront d m).1 = none ∧ (popBack d m).1 = none ∧
      (∃ v, peekHead d m = Except.ok v) ∧ (∃ v, getFront d m = Except.ok v) ∧
      (∃ v, peekTail d m = Except.ok v) ∧ (∃ v, getBack d m = Except.ok v)) := by
  obtain ⟨⟨hh, ht, _, _, _⟩, _, _⟩ := hrep
  rcases L with _ | ⟨a, rest⟩
  · have hh0 : d.head = none := by simpa using hh
    have ht0 : d.tail = none := by simpa using ht
    have hie : isEmpty d = true := by simp [isEmpty, hh0]
    refine ⟨?_, ?_, ?_, ?_, ?_, ?_, ?_, ?_⟩
    · simp [popFront, hh0, hie]
    · simp [popBack, ht0, hie]
    · simp [peekHead, hh0, hie]
    · simp [getFront, hh0, hie]
    · simp [peekTail, ht0, hie]
    · simp [getBack, ht0, hie]
    · intro _
      exact ⟨by simp [popFront, hh0], by simp [popBack, ht0]⟩
    · intro hcon
      rw [hie] at hcon
      exact absurd hcon (by simp)
  · have hhd : d.head = some a := by simpa using hh
    obtain ⟨tl, htl⟩ : ∃ x, d.tail = some x := by
      rcases List.eq_nil_or_concat (a :: rest) with h | ⟨L0, t, heq⟩
      · simp at h
      · exact ⟨t, by rw [ht, heq, List.concat_eq_append, List.getLast?_concat]⟩
    have hie : isEmpty d = false := by simp [isEmpty, hhd]
    have hpf : (popFront d m).1 = none := by
      rcases hnx : (getNode m.heap a).next with _ | b <;> simp [popFront, hhd, hnx]
    have hpb : (popBack d m).1 = none := by
      rcases hpv : (getNode m.heap tl).prev with _ | b <;> simp [popBack, htl, hpv]
    refine ⟨?_, ?_, ?_, ?_, ?_, ?_, ?_, ?_⟩
    · rw [hpf, hie]
      simp
    · rw [hpb, hie]
      simp
    · simp [peekHead, hhd, hie]
    · simp [getFront, hhd, hie]
    · simp [peekTail, htl, hie]
    · simp [getBack, htl, hie]
    · intro hcon
      rw [hie] at hcon
      exact absurd hcon (by simp)
    · intro _
      exact ⟨hpf, hpb, ⟨(getNode m.heap a).value, by simp [peekHead, hhd]⟩,
        ⟨(getNode m.heap a).value, by simp [getFront, hhd]⟩,
        ⟨(getNode m.heap tl).value, by simp [peekTail, htl]⟩,
        ⟨(getNode m.heap tl).value, by simp [getBack, htl]⟩⟩

/-- Witness for C7: the theorem applied to a newly constructed empty deque. -/
theorem C7_witness :
    Rep mem0 (emptyDq 0) [] ∧
    (isEmpty (emptyDq 0) = true →
      popFront (emptyDq 0) mem0 = (some DequeError.emptyContainer, emptyDq 0, mem0) ∧
      popBack (emptyDq 0) mem0 = (some DequeError.emptyContainer, emptyDq 0, mem0)) :=
  ⟨by decide, (C7_empty_error_iff (emptyDq 0) mem0 [] (by decide)).2.2.2.2.2.2.1⟩

/-- C10: a `PushBack` immediately followed by a `PopBack`, and likewise a
`PushFront` followed by a `PopFront`, restore the deque exactly: the same
`head`/`tail`/`size`/allocator fields, and every original node of the chain
(hence the element sequence) is untouched in memory. -/
theorem C10_push_pop_identity (v : Int) (d : Dq) (m : Mem) (L : List Nat)
    (hrep : Rep m d L) :
    (∃ m', popBack (pushBack v d m).2.1 (pushBack v d m).2.2 = (none, d, m') ∧
      (∀ x ∈ L, m'.heap x = m.heap x) ∧ vals m'.heap L = vals m.heap L) ∧
    (∃ m', popFront (pushFront v d m).2.1 (pushFront v d m).2.2 = (none, d, m') ∧
      (∀ x ∈ L, m'.heap x = m.heap x) ∧ vals m'.heap L = vals m.heap L) :=
  ⟨pushBack_popBack_id v d m L hrep, pushFront_popFront_id v d m L hrep⟩

/-- Witness for C10: push/pop round trip on the concrete deque [1]. -/
theorem C10_witness :
    Rep wMem1 wDq1 [0] ∧
    (∃ m', popBack (pushBack 7 wDq1 wMem1).2.1 (pushBack 7 wDq1 wMem1).2.2 =
        (none, wDq1, m') ∧
      (∀ x ∈ [0], m'.heap x = wMem1.heap x) ∧
      vals m'.heap [0] = vals wMem1.heap [0]) :=
  ⟨by decide, (C10_push_pop_identity 7 wDq1 wMem1 [0] (by decide)).1⟩

/-- C4 (amended): the move merge leaves the receiver holding old A followed
by old B with summed size and leaves the source empty, for any two distinct
deques whose combined element count stays below 2^32 (the `unsigned int`
size field wraps otherwise, see the counterexample). -/
theorem C4_move_merge_spec (dA dB : Dq) (m : Mem) (LA LB : List Nat)
    (hA : Rep m dA LA) (hB : Rep m dB LB) (hdj : ∀ a ∈ LA, a ∉ LB)
    (hbig : LA.length + LB.length < M) :
    ∃ d' s' m', addOtherMove dA dB m = (d', s', m') ∧
      Rep m' d' (LA ++ LB) ∧
      vals m'.heap (LA ++ LB) = vals m.heap LA ++ vals m.heap LB ∧
      d'.size = dA.size + dB.size ∧
      s'.head = none ∧ s'.tail = none ∧ s'.size = 0 ∧ isEmpty s' = true := by
  obtain ⟨d', s', m', heq, hrep, hvals, hsz, _, hh, ht, hs, _, _, _, _⟩ :=
    addOtherMove_spec dA dB m LA LB hA hB hdj hbig
  exact ⟨d', s', m', heq, hrep, hvals, hsz, hh, ht, hs, by simp [isEmpty, hh]⟩

/-- Witness for C4: move-merging the concrete deques [1] and [2]. -/
theorem C4_witness :
    (Rep wMem2 wDqA [0] ∧ Rep wMem2 wDqB [1] ∧ (∀ a ∈ [0], a ∉ [1]) ∧
      [0].length + [1].length < M) ∧
    (∃ d' s' m', addOtherMove wDqA wDqB wMem2 = (d', s', m') ∧
      Rep m' d' ([0] ++ [1]) ∧
      vals m'.heap ([0] ++ [1]) = vals wMem2.heap [0] ++ vals wMem2.heap [1] ∧
      d'.size = wDqA.size + wDqB.size ∧
      s'.head = none ∧ s'.tail = none ∧ s'.size = 0 ∧ isEmpty s' = true) :=
  ⟨⟨by decide, by decide, by decide, by decide⟩,
   C4_move_merge_spec wDqA wDqB wMem2 [0] [1] (by decide) (by decide) (by decide) (by decide)⟩

/-- C5: copy construction and copy assignment produce a deep copy: same
element sequence and size as the source, on entirely fresh nodes (no node
shared with the source), with the source chain untouched; afterwards a
`PopBack` on either deque leaves the other's representation and values
unchanged. -/
theorem C5_copy_spec :
    (∀ (src : Dq) (m : Mem) (LS : List Nat) (newId : Nat), Rep m src LS →
      ∃ Lnew d' m', copyCtor src m newId = (d', m') ∧
        Rep m' d' Lnew ∧
        vals m'.heap Lnew = vals m.heap LS ∧
        d'.size = src.size ∧
        (∀ a ∈ Lnew, a ∉ LS) ∧
        Rep m' src LS ∧ vals m'.heap LS = vals m.heap LS ∧
        (LS ≠ [] →
          (∃ d2 m2, popBack d' m' = (none, d2, m2) ∧
            Rep m2 src LS ∧ vals m2.heap LS = vals m.heap LS) ∧
          (∃ d3 m3, popBack src m' = (none, d3, m3) ∧
            Rep m3 d' Lnew ∧ vals m3.heap Lnew = vals m.heap LS))) ∧
    (∀ (dst src : Dq) (m : Mem) (LD LS : List Nat), Rep m dst LD → Rep m src LS →
      (∀ a ∈ LS, a ∉ LD) →
      ∃ Lnew d' m', copyAssign dst src m = (d', m') ∧
        Rep m' d' Lnew ∧ vals m'.heap Lnew = vals m.heap LS ∧
        d'.size = src.size ∧
        (∀ a ∈ Lnew, a ∉ LS) ∧
        Rep m' src LS ∧ vals m'.heap LS = vals m.heap LS) := by
  constructor
  · intro src m LS newId hsrc
    have hbnd : ∀ a ∈ LS, a < m.fresh := hsrc.1.2.2.2.2
    obtain ⟨Lnew, d', m', hloop, hrep', hvals', hlen', hfr', hfresh', hges', _⟩ :=
      copyInto_spec src LS { head := none, tail := none, size := 0, allocId := newId } [] m
        hsrc (Rep_empty _ _ rfl rfl rfl) (fun a _ => by simp)
        (by simpa using hsrc.2.2)
    simp only [List.nil_append] at hrep' hvals'
    have hvnil : vals m.heap ([] : List Nat) = [] := by simp [vals]
    rw [hvnil, List.nil_append] at hvals'
    have hsrcfr : ∀ x ∈ LS, m'.heap x = m.heap x :=
      fun x hx => hfr' x (hbnd x hx) (by simp)
    have hrepS : Rep m' src LS := Rep_frame m m' src LS hsrc hsrcfr hfresh'
    have hdisj : ∀ a ∈ Lnew, a ∉ LS :=
      fun a ha hmem => absurd (hbnd a hmem) (not_lt.2 (hges' a ha))
    refine ⟨Lnew, d', m', by rw [copyCtor]; exact hloop, hrep', hvals', ?_, hdisj,
      hrepS, vals_frame _ _ _ hsrcfr, ?_⟩
    · rw [hrep'.2.1, hlen', hsrc.2.1]
    · intro hne
      have hlnew : Lnew ≠ [] := by
        intro hcon
        rw [hcon] at hlen'
        exact hne (List.length_eq_zero.1 hlen'.symm)
      constructor
      · rcases List.eq_nil_or_concat Lnew with hcon | ⟨L0, t, heqn⟩
        · exact absurd hcon hlnew
        · rw [List.concat_eq_append] at heqn
          subst heqn
          obtain ⟨d2, m2, hpop, _, _, hfr2, hfresh2, _, _⟩ := popBack_spec d' m' t L0 hrep'
          have hfr2' : ∀ x ∈ LS, m2.heap x = m'.heap x :=
            fun x hx => hfr2 x (fun hmem => hdisj x hmem hx)
          refine ⟨d2, m2, hpop, Rep_frame m' m2 src LS hrepS hfr2' (le_of_eq hfresh2.symm), ?_⟩
          rw [vals_frame _ _ _ hfr2', vals_frame _ _ _ hsrcfr]
      · rcases List.eq_nil_or_concat LS with hcon | ⟨LS0, ts, heqs⟩
        · exact absurd hcon hne
        · rw [List.concat_eq_append] at heqs
          subst heqs
          obtain ⟨d3, m3, hpop, _, _, hfr3, hfresh3, _, _⟩ := popBack_spec src m' ts LS0 hrepS
          have hfr3' : ∀ x ∈ Lnew, m3.heap x = m'.heap x :=
            fun x hx => hfr3 x (hdisj x hx)
          refine ⟨d3, m3, hpop, Rep_frame m' m3 d' Lnew hrep' hfr3' (le_of_eq hfresh3.symm), ?_⟩
          rw [vals_frame _ _ _ hfr3', hvals']
  · intro dst src m LD LS hdst hsrc hdj
    obtain ⟨dc, mc, heqc, _, _, _, hidc, hrepc, hfrc, hfreshc, _⟩ := clear_spec dst m LD hdst
    have hsrcfrc : ∀ x ∈ LS, mc.heap x = m.heap x := fun x hx => hfrc x (hdj x hx)
    have hrepSc : Rep mc src LS := Rep_frame m mc src LS hsrc hsrcfrc (le_of_eq hfreshc.symm)
    have hbnd : ∀ a ∈ LS, a < mc.fresh := hrepSc.1.2.2.2.2
    obtain ⟨Lnew, d', m', hloop, hrep', hvals', hlen', hfr', hfresh', hges', _⟩ :=
      copyInto_spec src LS dc [] mc hrepSc hrepc (fun a _ => by simp)
        (by simpa using hrepSc.2.2)
    simp only [List.nil_append] at hrep' hvals'
    have hvnil : vals mc.heap ([] : List Nat) = [] := by simp [vals]
    rw [hvnil, List.nil_append] at hvals'
    have hsrcfr : ∀ x ∈ LS, m'.heap x = mc.heap x :=
      fun x hx => hfr' x (hbnd x hx) (by simp)
    have hrepS : Rep m' src LS := Rep_frame mc m' src LS hrepSc hsrcfr hfresh'
    have hdisj : ∀ a ∈ Lnew, a ∉ LS :=
      fun a ha hmem => absurd (hbnd a hmem) (not_lt.2 (hges' a ha))
    refine ⟨Lnew, d', m', ?_, hrep', ?_, ?_, hdisj, hrepS, ?_⟩
    · rw [copyAssign, heqc]
      exact hloop
    · rw [hvals', vals_frame _ _ _ hsrcfrc]
    · rw [hrep'.2.1, hlen', hsrc.2.1]
    · rw [vals_frame _ _ _ hsrcfr, vals_frame _ _ _ hsrcfrc]

/-- Witness for C5: copy-constructing the concrete deque [1]. -/
theorem C5_witness :
    Rep wMem1 wDq1 [0] ∧
    (∃ Lnew d' m', copyCtor wDq1 wMem1 5 = (d', m') ∧
      Rep m' d' Lnew ∧
      vals m'.heap Lnew = vals wMem1.heap [0] ∧
      d'.size = wDq1.size ∧
      (∀ a ∈ Lnew, a ∉ [0]) ∧
      Rep m' wDq1 [0] ∧ vals m'.heap [0] = vals wMem1.heap [0] ∧
      (([0] : List Nat) ≠ [] →
        (∃ d2 m2, popBack d' m' = (none, d2, m2) ∧
          Rep m2 wDq1 [0] ∧ vals m2.heap [0] = vals wMem1.heap [0]) ∧
        (∃ d3 m3, popBack wDq1 m' = (none, d3, m3) ∧
          Rep m3 d' Lnew ∧ vals m3.heap Lnew = vals wMem1.heap [0]))) :=
  ⟨by decide, C5_copy_spec.1 wDq1 wMem1 [0] 5 (by decide)⟩

/-- C6: move construction and move assignment transfer `head`/`tail`/`size`
so the destination holds exactly the source's chain and values, and leave
the source as a valid empty deque; move assignment first clears the
destination's old chain, every node released through the destination's own
allocator instance. -/
theorem C6_move_spec :
    (∀ (src : Dq) (newId : Nat) (m : Mem) (LS : List Nat), Rep m src LS →
      Rep m (moveCtor src newId).1 LS ∧
      (moveCtor src newId).1.size = src.size ∧
      isEmpty (moveCtor src newId).2 = true ∧
      Rep m (moveCtor src newId).2 []) ∧
    (∀ (dst src : Dq) (m : Mem) (LD LS : List Nat), Rep m dst LD → Rep m src LS →
      (∀ a ∈ LS, a ∉ LD) →
      ∃ d' s' m', moveAssign dst src m = (d', s', m') ∧
        Rep m' d' LS ∧ vals m'.heap LS = vals m.heap LS ∧
        d'.size = src.size ∧ d'.allocId = dst.allocId ∧
        isEmpty s' = true ∧ Rep m' s' [] ∧
        m'.trace = m.trace ++ LD.reverse.map (fun a => MemEvent.dealloc a dst.allocId)) := by
  constructor
  · intro src newId m LS hsrc
    obtain ⟨⟨hh, ht, hseg, hnd, hb⟩, hsz, hMb⟩ := hsrc
    exact ⟨⟨⟨hh, ht, hseg, hnd, hb⟩, hsz, hMb⟩, rfl, rfl, Rep_empty _ _ rfl rfl rfl⟩
  · intro dst src m LD LS hdst hsrc hdj
    obtain ⟨dc, mc, heqc, _, _, _, hidc, hrepc, hfrc, hfreshc, htrc⟩ := clear_spec dst m LD hdst
    have hsrcfrc : ∀ x ∈ LS, mc.heap x = m.heap x := fun x hx => hfrc x (hdj x hx)
    have hrepSc : Rep mc src LS := Rep_frame m mc src LS hsrc hsrcfrc (le_of_eq hfreshc.symm)
    obtain ⟨⟨hh, ht, hseg, hnd, hb⟩, hsz, hMb⟩ := hrepSc
    refine ⟨⟨src.head, src.tail, src.size, dc.allocId⟩, ⟨none, none, 0, src.allocId⟩, mc,
      ?_, ⟨⟨hh, ht, hseg, hnd, hb⟩, hsz, hMb⟩, vals_frame _ _ _ hsrcfrc, rfl, hidc, rfl,
      Rep_empty _ _ rfl rfl rfl, ?_⟩
    · rw [moveAssign, heqc]
    · rw [htrc]

/-- Witness for C6: move-constructing from the concrete deque [1]. -/
theorem C6_witness :
    Rep wMem1 wDq1 [0] ∧
    (Rep wMem1 (moveCtor wDq1 9).1 [0] ∧
      (moveCtor wDq1 9).1.size = wDq1.size ∧
      isEmpty (moveCtor wDq1 9).2 = true ∧
      Rep wMem1 (moveCtor wDq1 9).2 []) :=
  ⟨by decide, C6_move_spec.1 wDq1 9 wMem1 [0] (by decide)⟩

/-- C9 (amended): the copy merge appends copies of B's values at the back
of A in B's original front-to-back order, and leaves B's chain, size and
contents unmodified, provided the combined element count stays below 2^32
(the `unsigned int` size field of the receiver wraps otherwise, see the
counterexample). -/
theorem C9_copy_merge_spec (dA dB : Dq) (m : Mem) (LA LB : List Nat)
    (hA : Rep m dA LA) (hB : Rep m dB LB) (hdj : ∀ a ∈ LB, a ∉ LA)
    (hbig : LA.length + LB.length < M) :
    ∃ Lnew d' m', addOtherCopy dA dB m = (d', m') ∧
      Rep m' d' (LA ++ Lnew) ∧
      vals m'.heap (LA ++ Lnew) = vals m.heap LA ++ vals m.heap LB ∧
      d'.size = dA.size + dB.size ∧
      Rep m' dB LB ∧ vals m'.heap LB = vals m.heap LB ∧ Lnew.length = LB.length := by
  obtain ⟨Lnew, d', m', hloop, hrep', hvals', hlen', hfr', hfresh', hges', _⟩ :=
    copyInto_spec dB LB dA LA m hB hA hdj hbig
  have hbndB : ∀ a ∈ LB, a < m.fresh := hB.1.2.2.2.2
  have hBfr : ∀ x ∈ LB, m'.heap x = m.heap x :=
    fun x hx => hfr' x (hbndB x hx) (hdj x hx)
  refine ⟨Lnew, d', m', by rw [addOtherCopy]; exact hloop, hrep', hvals', ?_,
    Rep_frame m m' dB LB hB hBfr hfresh', vals_frame _ _ _ hBfr, hlen'⟩
  rw [hrep'.2.1]
  simp only [List.length_append]
  rw [hlen', hA.2.1, hB.2.1]

/-- Witness for C9: copy-merging the concrete deque [2] into [1]. -/
theorem C9_witness :
    (Rep wMem2 wDqA [0] ∧ Rep wMem2 wDqB [1] ∧ (∀ a ∈ [1], a ∉ [0]) ∧
      [0].length + [1].length < M) ∧
    (∃ Lnew d' m', addOtherCopy wDqA wDqB wMem2 = (d', m') ∧
      Rep m' d' ([0] ++ Lnew) ∧
      vals m'.heap ([0] ++ Lnew) = vals wMem2.heap [0] ++ vals wMem2.heap [1] ∧
      d'.size = wDqA.size + wDqB.size ∧
      Rep m' wDqB [1] ∧ vals m'.heap [1] = vals wMem2.heap [1] ∧
      Lnew.length = [1].length) :=
  ⟨⟨by decide, by decide, by decide, by decide⟩,
   C9_copy_merge_spec wDqA wDqB wMem2 [0] [1] (by decide) (by decide) (by decide) (by decide)⟩

/-- C2 (amended): the structural invariant (`head` absent iff `tail` absent
iff `size = 0`; null end links; following `next` from `head` reaches `tail`
in exactly `size - 1` steps and symmetrically for `prev`; all nodes
distinct and allocated) holds for every newly constructed deque and is
preserved by every public operation — provided the element count involved
stays below 2^32; at 2^32 elements the `unsigned int` size field wraps and
the invariant fails (see the counterexample). -/
theorem C2_invariant_preservation :
    (∀ (id : Nat) (m : Mem), Inv m (emptyDq id)) ∧
    (∀ (vs : List Int) (id : Nat) (m : Mem), vs.length < M →
      Inv (ofList vs id m).2 (ofList vs id m).1) ∧
    (∀ (v : Int) (d : Dq) (m : Mem) (L : List Nat), Rep m d L → L.length + 1 < M →
      Inv (pushFront v d m).2.2 (pushFront v d m).2.1) ∧
    (∀ (v : Int) (d : Dq) (m : Mem) (L : List Nat), Rep m d L → L.length + 1 < M →
      Inv (pushBack v d m).2.2 (pushBack v d m).2.1) ∧
    (∀ (d : Dq) (m : Mem) (L : List Nat), Rep m d L →
      Inv (popFront d m).2.2 (popFront d m).2.1) ∧
    (∀ (d : Dq) (m : Mem) (L : List Nat), Rep m d L →
      Inv (popBack d m).2.2 (popBack d m).2.1) ∧
    (∀ (d : Dq) (m : Mem) (L : List Nat), Rep m d L →
      Inv (clear d m).2 (clear d m).1) ∧
    (∀ (src : Dq) (m : Mem) (LS : List Nat) (newId : Nat), Rep m src LS →
      Inv (copyCtor src m newId).2 (copyCtor src m newId).1 ∧
      Inv (copyCtor src m newId).2 src) ∧
    (∀ (src : Dq) (newId : Nat) (m : Mem) (LS : List Nat), Rep m src LS →
      Inv m (moveCtor src newId).1 ∧ Inv m (moveCtor src newId).2) ∧
    (∀ (dA dB : Dq) (m : Mem) (LA LB : List Nat), Rep m dA LA → Rep m dB LB →
      (∀ a ∈ LB, a ∉ LA) → LA.length + LB.length < M →
      Inv (addOtherCopy dA dB m).2 (addOtherCopy dA dB m).1 ∧
      Inv (addOtherCopy dA dB m).2 dB) ∧
    (∀ (dA dB : Dq) (m : Mem) (LA LB : List Nat), Rep m dA LA → Rep m dB LB →
      (∀ a ∈ LA, a ∉ LB) → LA.length + LB.length < M →
      Inv (addOtherMove dA dB m).2.2 (addOtherMove dA dB m).1 ∧
      Inv (addOtherMove dA dB m).2.2 (addOtherMove dA dB m).2.1) ∧
    (∀ (dst src : Dq) (m : Mem) (LD LS : List Nat), Rep m dst LD → Rep m src LS →
      (∀ a ∈ LS, a ∉ LD) →
      Inv (copyAssign dst src m).2 (copyAssign dst src m).1 ∧
      Inv (copyAssign dst src m).2 src) ∧
    (∀ (dst src : Dq) (m : Mem) (LD LS : List Nat), Rep m dst LD → Rep m src LS →
      (∀ a ∈ LS, a ∉ LD) →
      Inv (moveAssign dst src m).2.2 (moveAssign dst src m).1 ∧
      Inv (moveAssign dst src m).2.2 (moveAssign dst src m).2.1) := by
  refine ⟨?_, ?_, ?_, ?_, ?_, ?_, ?_, ?_, ?_, ?_, ?_, ?_, ?_⟩
  · intro id m
    exact ⟨[], Rep_empty m _ rfl rfl rfl⟩
  · intro vs id m hlen
    obtain ⟨Lnew, d', m', heq, hrep', _, _, _, _, _, _⟩ :=
      pushBackList_spec vs (emptyDq id) [] m (Rep_empty m _ rfl rfl rfl) (by simpa using hlen)
    rw [ofList, heq]
    exact ⟨[] ++ Lnew, hrep'⟩
  · intro v d m L hrep hbig
    obtain ⟨d', m', heq, hrep', _, _, _, _, _⟩ := pushFront_spec v d m L hrep hbig
    rw [heq]
    exact ⟨m.fresh :: L, hrep'⟩
  · intro v d m L hrep hbig
    obtain ⟨d', m', heq, hrep', _, _, _, _, _⟩ := pushBack_spec v d m L hrep hbig
    rw [heq]
    exact ⟨L ++ [m.fresh], hrep'⟩
  · intro d m L hrep
    rcases L with _ | ⟨a, rest⟩
    · have hh0 : d.head = none := by simpa using hrep.1.1
      simp only [popFront, hh0]
      exact ⟨[], hrep⟩
    · obtain ⟨d', m', heq, hrep', _, _, _, _, _⟩ := popFront_spec d m a rest hrep
      rw [heq]
      exact ⟨rest, hrep'⟩
  · intro d m L hrep
    rcases List.eq_nil_or_concat L with rfl | ⟨L0, t, heqL⟩
    · have ht0 : d.tail = none := by simpa using hrep.1.2.1
      simp only [popBack, ht0]
      exact ⟨[], hrep⟩
    · rw [List.concat_eq_append] at heqL
      subst heqL
      obtain ⟨d', m', heq, hrep', _, _, _, _, _⟩ := popBack_spec d m t L0 hrep
      rw [heq]
      exact ⟨L0, hrep'⟩
  · intro d m L hrep
    obtain ⟨d', m', heq, _, _, _, _, hrep', _, _, _⟩ := clear_spec d m L hrep
    rw [heq]
    exact ⟨[], hrep'⟩
  · intro src m LS newId hsrc
    have hbnd : ∀ a ∈ LS, a < m.fresh := hsrc.1.2.2.2.2
    obtain ⟨Lnew, d', m', hloop, hrep', _, _, hfr', hfresh', _, _⟩ :=
      copyInto_spec src LS { head := none, tail := none, size := 0, allocId := newId } [] m
        hsrc (Rep_empty _ _ rfl rfl rfl) (fun a _ => by simp) (by simpa using hsrc.2.2)
    have heq : copyCtor src m newId = (d', m') := by
      rw [copyCtor]
      exact hloop
    rw [heq]
    refine ⟨⟨[] ++ Lnew, hrep'⟩, ⟨LS, ?_⟩⟩
    exact Rep_frame m m' src LS hsrc (fun x hx => hfr' x (hbnd x hx) (by simp)) hfresh'
  · intro src newId m LS hsrc
    obtain ⟨⟨hh, ht, hseg, hnd, hb⟩, hsz, hMb⟩ := hsrc
    exact ⟨⟨LS, ⟨⟨hh, ht, hseg, hnd, hb⟩, hsz, hMb⟩⟩, ⟨[], Rep_empty _ _ rfl rfl rfl⟩⟩
  · intro dA dB m LA LB hA hB hdj hbig
    have hbndB : ∀ a ∈ LB, a < m.fresh := hB.1.2.2.2.2
    obtain ⟨Lnew, d', m', hloop, hrep', _, _, hfr', hfresh', _, _⟩ :=
      copyInto_spec dB LB dA LA m hB hA hdj hbig
    have heq : addOtherCopy dA dB m = (d', m') := by
      rw [addOtherCopy]
      exact hloop
    rw [heq]
    refine ⟨⟨LA ++ Lnew, hrep'⟩, ⟨LB, ?_⟩⟩
    exact Rep_frame m m' dB LB hB (fun x hx => hfr' x (hbndB x hx) (hdj x hx)) hfresh'
  · intro dA dB m LA LB hA hB hdj hbig
    obtain ⟨d', s', m', heq, hrep', _, _, _, _, _, _, _, hrepS, _, _⟩ :=
      addOtherMove_spec dA dB m LA LB hA hB hdj hbig
    rw [heq]
    exact ⟨⟨LA ++ LB, hrep'⟩, ⟨[], hrepS⟩⟩
  · intro dst src m LD LS hdst hsrc hdj
    obtain ⟨dc, mc, heqc, _, _, _, _, hrepc, hfrc, hfreshc, _⟩ := clear_spec dst m LD hdst
    have hrepSc : Rep mc src LS :=
      Rep_frame m mc src LS hsrc (fun x hx => hfrc x (hdj x hx)) (le_of_eq hfreshc.symm)
    have hbnd : ∀ a ∈ LS, a < mc.fresh := hrepSc.1.2.2.2.2
    obtain ⟨Lnew, d', m', hloop, hrep', _, _, hfr', hfresh', _, _⟩ :=
      copyInto_spec src LS dc [] mc hrepSc hrepc (fun a _ => by simp)
        (by simpa using hrepSc.2.2)
    have heq : copyAssign dst src m = (d', m') := by
      rw [copyAssign, heqc]
      exact hloop
    rw [heq]
    refine ⟨⟨[] ++ Lnew, hrep'⟩, ⟨LS, ?_⟩⟩
    exact Rep_frame mc m' src LS hrepSc (fun x hx => hfr' x (hbnd x hx) (by simp)) hfresh'
  · intro dst src m LD LS hdst hsrc hdj
    obtain ⟨dc, mc, heqc, _, _, _, _, hrepc, hfrc, hfreshc, _⟩ := clear_spec dst m LD hdst
    have hrepSc : Rep mc src LS :=
      Rep_frame m mc src LS hsrc (fun x hx => hfrc x (hdj x hx)) (le_of_eq hfreshc.symm)
    obtain ⟨⟨hh, ht, hseg, hnd, hb⟩, hsz, hMb⟩ := hrepSc
    have heq : moveAssign dst src m =
        (⟨src.head, src.tail, src.size, dc.allocId⟩, ⟨none, none, 0, src.allocId⟩, mc) := by
      rw [moveAssign, heqc]
    rw [heq]
    exact ⟨⟨LS, ⟨⟨hh, ht, hseg, hnd, hb⟩, hsz, hMb⟩⟩, ⟨[], Rep_empty _ _ rfl rfl rfl⟩⟩

/-- Witness for C2: the pushBack conjunct applied to the empty deque. -/
theorem C2_witness :
    Inv (pushBack 5 (emptyDq 0) mem0).2.2 (pushBack 5 (emptyDq 0) mem0).2.1 :=
  C2_invariant_preservation.2.2.2.1 5 (emptyDq 0) mem0 [] (by decide) (by decide)

/-- Raw size/head of a deque built by `k + 1` push-backs of 0. -/
theorem bigPush_facts (k : Nat) :
    (ofList (List.replicate (k + 1) 0) 0 mem0).1.size = (1 + k) % M ∧
    (ofList (List.replicate (k + 1) 0) 0 mem0).1.head = some 0 := by
  have hstep : ofList (List.replicate (k + 1) (0 : Int)) 0 mem0 =
      pushBackList (List.replicate k 0)
        (pushBack 0 (emptyDq 0) mem0).2.1 (pushBack 0 (emptyDq 0) mem0).2.2 := by
    rw [ofList, List.replicate_succ]
    simp only [pushBackList]
  obtain ⟨hsz, hhd⟩ := pushBackList_size_head (List.replicate k 0)
    (pushBack 0 (emptyDq 0) mem0).2.1 (pushBack 0 (emptyDq 0) mem0).2.2 (by decide)
  constructor
  · rw [hstep, hsz, List.length_replicate,
      show (pushBack 0 (emptyDq 0) mem0).2.1.size = 1 from by decide]
  · rw [hstep]
    exact hhd 0 (by decide)

/-- C2 counterexample: after 2^32 consecutive `PushBack` calls — a deque
reachable from the initializer-list constructor by public operations alone
— the `unsigned int` size field wraps to 0 while `head` still points at the
first node, so the structural invariant fails on a reachable deque. -/
theorem C2_cex_size_wraps :
    ¬ Inv (ofList (List.replicate M 0) 0 mem0).2 (ofList (List.replicate M 0) 0 mem0).1 := by
  have hM : M = (M - 1) + 1 := by norm_num [M]
  obtain ⟨hsz, hhd⟩ := bigPush_facts (M - 1)
  rw [← hM] at hsz hhd
  have hsz0 : (ofList (List.replicate M 0) 0 mem0).1.size = 0 := by
    rw [hsz]
    norm_num [M]
  rintro ⟨L, ⟨hh, -, -, -, -⟩, hszL, -⟩
  rw [hsz0] at hszL
  have hL : L = [] := List.length_eq_zero.1 hszL.symm
  subst hL
  rw [hhd] at hh
  exact absurd hh (by simp)

/-- C4 counterexample: for two valid, disjoint deques of 2^31 elements
each, the move merge cannot deliver what the claim states — the receiver's
32-bit `size` field wraps to 0, so no valid representation with the
2^32-element concatenated sequence (and no size equal to the sum) exists. -/
theorem C4_cex_size_overflow :
    ¬ (∀ (dA dB : Dq) (m : Mem) (LA LB : List Nat),
        Rep m dA LA → Rep m dB LB → (∀ a ∈ LA, a ∉ LB) →
        (addOtherMove dA dB m).1.size = dA.size + dB.size ∧
        (addOtherMove dA dB m).2.1.head = none ∧
        (addOtherMove dA dB m).2.1.tail = none ∧
        (addOtherMove dA dB m).2.1.size = 0 ∧
        (∃ LR, Rep (addOtherMove dA dB m).2.2 (addOtherMove dA dB m).1 LR ∧
          vals (addOtherMove dA dB m).2.2.heap LR =
            vals m.heap LA ++ vals m.heap LB)) := by
  intro hclaim
  obtain ⟨LA, dA, mA, heqA, hrepA, hvalsA, hlenA, _, hfreshA, _, _⟩ :=
    pushBackList_spec (List.replicate 2147483648 0) (emptyDq 0) [] mem0
      (Rep_empty _ _ rfl rfl rfl) (by rw [List.length_replicate, List.length_nil]; norm_num [M])
  simp only [List.nil_append] at hrepA hvalsA
  obtain ⟨LB, dB, mB, heqB, hrepB, hvalsB, hlenB, hfrB, hfreshB, hgesB, _⟩ :=
    pushBackList_spec (List.replicate 2147483648 0) (emptyDq 1) [] mA
      (Rep_empty _ _ rfl rfl rfl) (by rw [List.length_replicate, List.length_nil]; norm_num [M])
  simp only [List.nil_append] at hrepB hvalsB
  have hbndA : ∀ a ∈ LA, a < mA.fresh := hrepA.1.2.2.2.2
  have hrepA2 : Rep mB dA LA :=
    Rep_frame mA mB dA LA hrepA (fun x hx => hfrB x (by simp) (hbndA x hx)) hfreshB
  have hdisj : ∀ a ∈ LA, a ∉ LB :=
    fun a ha hmem => absurd (hgesB a hmem) (not_le.2 (hbndA a ha))
  obtain ⟨-, -, -, -, LR, hrep', hvals'⟩ := hclaim dA dB mB LA LB hrepA2 hrepB hdisj
  have hlA : LA.length = 2147483648 := by rw [hlenA, List.length_replicate]
  have hlB : LB.length = 2147483648 := by rw [hlenB, List.length_replicate]
  have h1 : LR.length = LA.length + LB.length := by
    have hcg := congrArg List.length hvals'
    simpa [vals_length, List.length_append] using hcg
  have h2 : LR.length < M := hrep'.2.2
  rw [h1, hlA, hlB] at h2
  norm_num [M] at h2

/-- C9 counterexample: copy-merging a 2^31-element deque into another
2^31-element deque wraps the receiver's 32-bit `size` field, so the
receiver does not become a valid deque holding old A followed by B. -/
theorem C9_cex_size_overflow :
    ¬ (∀ (dA dB : Dq) (m : Mem) (LA LB : List Nat),
        Rep m dA LA → Rep m dB LB → (∀ a ∈ LB, a ∉ LA) →
        ∃ LR d' m', addOtherCopy dA dB m = (d', m') ∧
          Rep m' d' LR ∧
          vals m'.heap LR = vals m.heap LA ++ vals m.heap LB ∧
          Rep m' dB LB ∧ vals m'.heap LB = vals m.heap LB) := by
  intro hclaim
  obtain ⟨LA, dA, mA, heqA, hrepA, hvalsA, hlenA, _, hfreshA, _, _⟩ :=
    pushBackList_spec (List.replicate 2147483648 0) (emptyDq 0) [] mem0
      (Rep_empty _ _ rfl rfl rfl) (by rw [List.length_replicate, List.length_nil]; norm_num [M])
  simp only [List.nil_append] at hrepA hvalsA
  obtain ⟨LB, dB, mB, heqB, hrepB, hvalsB, hlenB, hfrB, hfreshB, hgesB, _⟩ :=
    pushBackList_spec (List.replicate 2147483648 0) (emptyDq 1) [] mA
      (Rep_empty _ _ rfl rfl rfl) (by rw [List.length_replicate, List.length_nil]; norm_num [M])
  simp only [List.nil_append] at hrepB hvalsB
  have hbndA : ∀ a ∈ LA, a < mA.fresh := hrepA.1.2.2.2.2
  have hrepA2 : Rep mB dA LA :=
    Rep_frame mA mB dA LA hrepA (fun x hx => hfrB x (by simp) (hbndA x hx)) hfreshB
  have hdisj : ∀ a ∈ LB, a ∉ LA :=
    fun a ha hmem => absurd (hgesB a ha) (not_le.2 (hbndA a hmem))
  obtain ⟨LR, d', m', -, hrep', hvals', -, -⟩ := hclaim dA dB mB LA LB hrepA2 hrepB hdisj
  have hlA : LA.length = 2147483648 := by rw [hlenA, List.length_replicate]
  have hlB : LB.length = 2147483648 := by rw [hlenB, List.length_replicate]
  have h1 : LR.length = LA.length + LB.length := by
    have hcg := congrArg List.length hvals'
    simpa [vals_length, List.length_append] using hcg
  have h2 : LR.length < M := hrep'.2.2
  rw [h1, hlA, hlB] at h2
  norm_num [M] at h2

/-- C3 counterexample: a node allocated by a deque whose allocator instance
is 0, transferred by move construction to a destination whose allocator
member is a new default-constructed instance (here 1, since the C++ move
constructor does not copy or move the allocator member), is deallocated
through instance 1 during the destination's teardown — not through the
instance that allocated it. -/
theorem C3_cex_transfer_dealloc :
    traceRespectsAllocator
      ((clear (moveCtor (pushBack 5 (emptyDq 0) mem0).2.1 1).1
          (pushBack 5 (emptyDq 0) mem0).2.2).2.trace) = false := by
  decide

/-- C3 (amended): a node allocated and deallocated by the same deque (no
ownership transfer in between) always goes through the allocator instance
that allocated it: building any deque by push-backs and clearing it yields
a ghost trace in which every deallocation's instance matches its
allocation's (first conjunct).  A chain transferred by move construction is
instead deallocated through the receiver's own, freshly
default-constructed, allocator instance (second conjunct). -/
theorem C3_same_deque_alloc_dealloc :
    (∀ (vs : List Int) (id : Nat),
      traceRespectsAllocator
        ((clear (ofList vs id mem0).1 (ofList vs id mem0).2).2.trace) = true) ∧
    (∀ (v : Int) (id newId : Nat),
      (clear (moveCtor (pushBack v (emptyDq id) mem0).2.1 newId).1
          (pushBack v (emptyDq id) mem0).2.2).2.trace =
        [MemEvent.alloc 0 id, MemEvent.dealloc 0 newId]) := by
  constructor
  · intro vs id
    obtain ⟨hid1, htr1⟩ := pushBackList_trace vs (emptyDq id) mem0
    obtain ⟨_, htr2⟩ := clearLoop_trace (ofList vs id mem0).1.size (ofList vs id mem0).1
      (ofList vs id mem0).2
    apply traceRespects_of_const_id _ id
    intro e he
    rcases htr2 e he with h | h
    · rcases htr1 e h with h0 | h0
      · exact absurd h0 (List.not_mem_nil e)
      · exact h0
    · rw [h]
      exact hid1
  · intro v id newId
    rfl

/-- Witness for C3: building [1, 2] and clearing it keeps every
deallocation on the allocating instance. -/
theorem C3_witness :
    traceRespectsAllocator
      ((clear (ofList [1, 2] 0 mem0).1 (ofList [1, 2] 0 mem0).2).2.trace) = true :=
  C3_same_deque_alloc_dealloc.1 [1, 2] 0

/-- Witness for C1: the failure evaluated at a concrete input. -/
theorem C1_witness :
    (pushFrontGen allocFail 7 (emptyDq 0) mem0).1 = some DequeError.nullDereference ∧
    (pushBackGen allocFail 7 (emptyDq 0) mem0).1 = some DequeError.nullDereference ∧
    (pushFrontGen allocFail 7 (emptyDq 0) mem0).1 ≠ some DequeError.outOfMemory ∧
    (pushBackGen allocFail 7 (emptyDq 0) mem0).1 ≠ some DequeError.outOfMemory :=
  C1_alloc_failure_is_null_deref 7 (emptyDq 0) mem0

/-- Witness for C8: dereferencing a past-the-end iterator over the empty
heap fails with `InvalidIterator`. -/
theorem C8_witness :
    iterDeref mem0.heap none = Except.error DequeError.invalidIterator :=
  (C8_iterator_errors mem0.heap 0).1

end DequeModel
